import Mathlib

/-!
Verification development for the h2kv content-negotiated key-value server.

The definitions below are a shallow embedding of the Rust sources:
  * a string model of the `std::path` operations the server uses,
  * the media-type machinery of `content_negotiation.rs`,
  * the request handlers of `server.rs` over a list-backed store,
  * the filesystem sync engine of `fs_sync.rs`,
  * the glob ignore filter of `ignore_filter.rs`.
Paths are POSIX-style strings; byte strings are lists of naturals.
-/

namespace H2kv

instance {e a : Type} [DecidableEq e] [DecidableEq a] : DecidableEq (Except e a) := fun x y =>
  match x, y with
  | .ok x1, .ok y1 =>
      if h : x1 = y1 then isTrue (by rw [h]) else isFalse (by intro hc; cases hc; exact h rfl)
  | .error x1, .error y1 =>
      if h : x1 = y1 then isTrue (by rw [h]) else isFalse (by intro hc; cases hc; exact h rfl)
  | .ok _, .error _ => isFalse (by intro hc; cases hc)
  | .error _, .ok _ => isFalse (by intro hc; cases hc)

/-! ### Model of `std::path` (POSIX paths as strings)

Rust's `Path::file_name` returns the last non-empty, non-`.` component,
and `None` when that component is `..` (or the path is a bare root).
We work on the reversed character list so the scan is structurally simple.
-/

/-- Reversed-path worker (fuel-based so it reduces in the kernel): returns
`(nameRev, preRev)` where `name` is the last non-empty, non-`.` segment of
the path and `pre` is everything before it (ending in `/` unless empty).
Trailing `/` and `.` segments are skipped, as Rust's component parser does.
Each recursive step consumes at least one character, so fuel
`length + 1` is always sufficient. -/
def fnsRevF : Nat → List Char → Option (List Char × List Char)
  | 0, _ => none
  | fuel + 1, rcs =>
    let rcs1 := rcs.dropWhile (· = '/')
    let name := rcs1.takeWhile (· ≠ '/')
    if name = ['.'] then fnsRevF fuel (rcs1.dropWhile (· ≠ '/'))
    else if name = [] then none
    else some (name, rcs1.drop name.length)

def fnsRev (rcs : List Char) : Option (List Char × List Char) :=
  fnsRevF (rcs.length + 1) rcs

/-- Split a path into the raw prefix before its file-name component and
that component. -/
def fileNameSplit (p : String) : Option (String × String) :=
  match fnsRev p.data.reverse with
  | none => none
  | some (nameRev, preRev) => some (⟨preRev.reverse⟩, ⟨nameRev.reverse⟩)

/-- Rust `Path::file_name`. -/
def fileName (p : String) : Option String :=
  match fileNameSplit p with
  | none => none
  | some (_, n) => if n = ".." then none else some n

def notDot (c : Char) : Bool := c != '.'

/-- Split a file name at its last dot, Rust style: no extension when there
is no dot or when the part before the last dot is empty. -/
def splitLastDot (name : List Char) : List Char × Option (List Char) :=
  match name.reverse.dropWhile notDot with
  | [] => (name, none)
  | _ :: beforeRev =>
      if beforeRev = [] then (name, none)
      else (beforeRev.reverse, some (name.reverse.takeWhile notDot).reverse)

/-- Rust `Path::extension`. -/
def extension (p : String) : Option String :=
  (fileName p).bind fun n => (splitLastDot n.data).2.map (⟨·⟩)

/-- Rust `Path::file_stem`. -/
def fileStem (p : String) : Option String :=
  (fileName p).map fun n => ⟨(splitLastDot n.data).1⟩

/-- Rust `Path::with_extension` (with the `set_extension` truncation
behaviour: the buffer is cut right after the file stem). -/
def withExtension (p e : String) : String :=
  match fileNameSplit p with
  | none => p
  | some (pre, name) =>
      if name = ".." then p
      else
        let stem := (splitLastDot name.data).1
        if e = "" then ⟨pre.data ++ stem⟩
        else ⟨pre.data ++ stem ++ '.' :: e.data⟩

def dropTrailingSlashes (cs : List Char) : List Char :=
  (cs.reverse.dropWhile (· = '/')).reverse

/-- Rust `Path::parent`. -/
def parent (p : String) : Option String :=
  match fileNameSplit p with
  | none => none
  | some (pre, _) =>
      let pre1 := dropTrailingSlashes pre.data
      if pre1 = [] then
        if p.data.head? = some '/' then some "/" else some ""
      else some ⟨pre1⟩

/-- Rust `Path::join`. -/
def pathJoin (a b : String) : String :=
  if b.data.head? = some '/' then b
  else if a = "" then b
  else if a.data.getLast? = some '/' then a ++ b
  else a ++ "/" ++ b

/-- Strip extensions from a bare file name until none is left
(the loop body of `util::path_stem`); fuel-based, each step strictly
shortens the name. -/
def stripNameF : Nat → List Char → List Char
  | 0, n => n
  | fuel + 1, n =>
    if n = ['.', '.'] then n
    else match splitLastDot n with
      | (_, none) => n
      | (stem, some _) => stripNameF fuel stem

def stripNameData (n : List Char) : List Char :=
  stripNameF (n.length + 1) n

/-- `util::path_stem`: the path with all trailing extensions removed. -/
def pathStem (p : String) : String :=
  let pre :=
    match extension p, fileStem p with
    | some _, some s => (⟨stripNameData s.data⟩ : String)
    | _, _ => p
  match parent p with
  | none => pre
  | some par => pathJoin par pre

/-- The key of the extensions sidecar for a logical path
(`PathExtensions::get_for_path`). -/
def sidecarKey (p : String) : String :=
  withExtension (pathJoin "/" (pathStem p)) "ext"

example : fileName "/foo/bar.txt" = some "bar.txt" := by rfl
example : fileName "/" = none := by rfl
example : fileName "/a/b/." = some "b" := by rfl
example : fileName "/a/.." = none := by rfl
example : extension "/a.octet-stream" = some "octet-stream" := by rfl
example : extension "/.bashrc" = none := by rfl
example : extension "/a.b.c" = some "c" := by rfl
example : extension "/a." = some "" := by rfl
example : withExtension "/a" "txt" = "/a.txt" := by rfl
example : withExtension "/" "txt" = "/" := by rfl
example : withExtension "/a/" "txt" = "/a.txt" := by rfl
example : withExtension "/.foo" "txt" = "/.foo.txt" := by rfl
example : withExtension "/a.octet-stream" "" = "/a" := by rfl
example : parent "/a/b" = some "/a" := by rfl
example : parent "/a" = some "/" := by rfl
example : parent "/" = none := by rfl
example : parent "a" = some "" := by rfl
example : pathStem "/foo/bar/baz.foy.txt" = "/foo/bar/baz" := by rfl
example : pathStem "/" = "/" := by rfl
example : pathStem "/a" = "/a" := by rfl
example : sidecarKey "/a.octet-stream" = "/a.ext" := by rfl
example : sidecarKey "/a/b.x.y" = "/a/b.ext" := by rfl
example : sidecarKey "/" = "/" := by rfl

/-! ### Media types (model of the `mediatype` crate)

Type, subtype and parameters are kept as character lists; `+suffix`
notation stays inside the subtype.  The crate accepts `*` wildcard tokens,
so `*` is included in the token alphabet.  Quoted-string parameter values
are not modelled (token values only). -/

def isTchar (c : Char) : Bool :=
  c.isAlpha || c.isDigit ||
  c ∈ ['!', '#', '$', '%', '&', Char.ofNat 39, '*', '+', '-', '.', '^', '_', Char.ofNat 96, '|', '~']

def isOws (c : Char) : Bool := c = ' ' || c = Char.ofNat 9

structure MT where
  ty : List Char
  subty : List Char
  params : List (List Char × List Char)
  deriving DecidableEq, Repr

/-- Parse `( OWS ";" OWS token "=" token )*` with optional trailing OWS. -/
def parseMTparams : Nat → List Char → Option (List (List Char × List Char))
  | _, [] => some []
  | 0, _ => none
  | fuel + 1, cs =>
      match cs.dropWhile isOws with
      | [] => some []
      | c1 :: cs2 =>
          if c1 = ';' then
            let cs3 := cs2.dropWhile isOws
            let k := cs3.takeWhile isTchar
            if k = [] then none else
            match cs3.dropWhile isTchar with
            | [] => none
            | c2 :: cs4 =>
                if c2 = '=' then
                  let v := cs4.takeWhile isTchar
                  if v = [] then none
                  else (parseMTparams fuel (cs4.dropWhile isTchar)).map ((k, v) :: ·)
                else none
          else none

/-- Model of `MediaType::parse`. -/
def parseMT (s : String) : Option MT :=
  let cs := s.data
  let t := cs.takeWhile isTchar
  if t = [] then none else
  match cs.dropWhile isTchar with
  | [] => none
  | c :: cs2 =>
      if c = '/' then
        let st := cs2.takeWhile isTchar
        if st = [] then none
        else
          (parseMTparams (cs2.length + 1) (cs2.dropWhile isTchar)).map
            fun ps => ⟨t, st, ps⟩
      else none

def paramsStr (ps : List (List Char × List Char)) : List Char :=
  (ps.map fun kv => ';' :: ' ' :: (kv.1 ++ '=' :: kv.2)).flatten

/-- Model of the `Display` impl for `MediaType` (`to_string`). -/
def mtToString (mt : MT) : String :=
  ⟨mt.ty ++ '/' :: mt.subty ++ paramsStr mt.params⟩

/-- `media_type.essence().to_string()`: type and subtype, parameters
stripped. -/
def essenceString (mt : MT) : String := ⟨mt.ty ++ '/' :: mt.subty⟩

def genericMT : MT := ⟨"application".data, "octet-stream".data, []⟩

def GENERIC_EXT : String := "octet-stream"

example : parseMT "text/plain" = some ⟨"text".data, "plain".data, []⟩ := by rfl
example : parseMT "text/plain; charset=utf-8" =
    some ⟨"text".data, "plain".data, [("charset".data, "utf-8".data)]⟩ := by rfl
example : parseMT "nonsense" = none := by rfl
example : parseMT "a//b" = none := by rfl
example : mtToString ⟨"text".data, "plain".data, [("charset".data, "utf-8".data)]⟩ =
    "text/plain; charset=utf-8" := by rfl
example : essenceString ⟨"text".data, "plain".data, [("charset".data, "utf-8".data)]⟩ =
    "text/plain" := by rfl

/-! ### Headers (model of `http::HeaderMap` / `HeaderValue`) -/

abbrev Bytes := List Nat

abbrev Headers := List (String × Bytes)

def hget (hs : Headers) (name : String) : Option Bytes :=
  (hs.find? (·.1 = name)).map (·.2)

/-- `HeaderValue::to_str` succeeds only on visible-ASCII bytes (tab
allowed). -/
def isVisibleAscii (b : Nat) : Bool := (32 ≤ b && b < 127) || b = 9

def toStrOpt (bs : Bytes) : Option String :=
  if bs.all isVisibleAscii then some ⟨bs.map Char.ofNat⟩ else none

def strBytes (s : String) : Bytes := s.data.map Char.toNat

/-! ### Static MIME tables (models of `mime2ext` and `new_mime_guess`) -/

def mimeToExtTable : List (String × String) :=
  [("text/plain", "txt"), ("text/html", "html"), ("text/css", "css"),
   ("application/json", "json"), ("text/javascript", "js"),
   ("image/png", "png"), ("image/jpeg", "jpg"), ("image/gif", "gif"),
   ("application/xml", "xml"), ("application/pdf", "pdf")]

/-- Model of the `mime2ext` crate: exact lookup in a static table
(representative subset). -/
def mime2ext (s : String) : Option String :=
  (mimeToExtTable.find? (·.1 = s)).map (·.2)

def extToMimeTable : List (String × String) :=
  [("txt", "text/plain"), ("html", "text/html"), ("css", "text/css"),
   ("json", "application/json"), ("js", "text/javascript"),
   ("png", "image/png"), ("jpg", "image/jpeg"), ("gif", "image/gif"),
   ("xml", "application/xml"), ("pdf", "application/pdf")]

/-- Model of `new_mime_guess::from_ext(..).first_raw()`. -/
def mimeGuess (ext : String) : Option String :=
  (extToMimeTable.find? (·.1 = ext)).map (·.2)

/-! ### Negotiation (`content_negotiation.rs`) -/

inductive Failure
  | error
  | panic
  deriving DecidableEq, Repr

structure NegotiatedPath where
  storage_key : String
  media_type : MT
  deriving DecidableEq, Repr

/-- `NegotiatedPath::for_write`. -/
def forWrite (p : String) (headers : Headers) : Except Failure (Option NegotiatedPath) :=
  match extension p, hget headers "content-type" with
  | some _, none => .ok (some ⟨p, genericMT⟩)
  | none, some ctBytes =>
      match toStrOpt ctBytes with
      | none => .error .error
      | some ct =>
          match parseMT ct with
          | none => .ok none
          | some mt => .ok (some ⟨withExtension p ((mime2ext ct).getD GENERIC_EXT), mt⟩)
  | some _, some ctBytes =>
      match toStrOpt ctBytes with
      | none => .error .error
      | some ct =>
          match parseMT ct with
          | none => .ok none
          | some mt => .ok (some ⟨p, mt⟩)
  | none, none => .ok (some ⟨withExtension p GENERIC_EXT, genericMT⟩)

/-! Sidecar maps: insertion-ordered association lists, mirroring the
`serde_json` map with the insertion-order feature the spec describes. -/

abbrev SideMap := List (String × String)

def mapLookup (m : SideMap) (k : String) : Option String :=
  (m.find? (·.1 = k)).map (·.2)

/-- Insertion-order map insert (IndexMap semantics): an existing key keeps
its position with the value replaced; a new key is appended. -/
def mapInsert : SideMap → String → String → SideMap
  | [], k, v => [(k, v)]
  | e :: rest, k, v => if e.1 = k then (k, v) :: rest else e :: mapInsert rest k v

def mapRemove (m : SideMap) (k : String) : SideMap :=
  m.filter (·.1 ≠ k)

/-- `PathExtensions::get_media_type`. -/
def getMediaType (m : SideMap) (e : String) : Except Failure (Option MT) :=
  match mapLookup m e with
  | none => .ok none
  | some s =>
      match parseMT s with
      | none => .error .error
      | some mt => .ok (some mt)

def isJsonStr (s : String) : Bool := "application/json".data.isPrefixOf s.data

def jsonRank (s : String) : Nat := if isJsonStr s then 0 else 1

def jsonLe (a b : String) : Prop := jsonRank a ≤ jsonRank b

instance : DecidableRel jsonLe := fun a b => Nat.decLe _ _

instance : IsTotal String jsonLe := ⟨fun a b => Nat.le_total _ _⟩

instance : IsTrans String jsonLe := ⟨fun _ _ _ => Nat.le_trans⟩

/-- `collect::<Result<Vec<_>, _>>` over `MediaType::parse`. -/
def collectParsed : List String → Option (List MT)
  | [] => some []
  | s :: rest =>
      match parseMT s with
      | none => none
      | some mt => (collectParsed rest).map (mt :: ·)

/-- `PathExtensions::get_all_media_types`: values sorted with the
json-first comparator (a stable sort), then parsed; any parse failure
fails the whole call. -/
def getAllMediaTypes (m : SideMap) : Except Failure (List MT) :=
  match collectParsed (List.insertionSort jsonLe (m.map (·.2))) with
  | none => .error .error
  | some L => .ok L

/-- `PathExtensions::get_extension`: first key whose parsed value equals
the media type. -/
def getExtension (mt : MT) : SideMap → Except Failure (Option String)
  | [] => .ok none
  | (k, v) :: rest =>
      match parseMT v with
      | none => .error .error
      | some mtv => if mtv = mt then .ok (some k) else getExtension mt rest

/-! Accept headers (model of the `headers_accept` crate). -/

structure AcceptRange where
  range : MT
  q : Nat
  deriving DecidableEq, Repr

/-- Parse a qvalue into thousandths. -/
def parseQ : List Char → Option Nat
  | ['1'] => some 1000
  | '1' :: '.' :: rest =>
      if rest.all (· = '0') && rest.length ≤ 3 && rest ≠ [] then some 1000 else none
  | ['0'] => some 0
  | '0' :: '.' :: rest =>
      if rest.all Char.isDigit && rest.length ≤ 3 && rest ≠ [] then
        some ((rest ++ List.replicate (3 - rest.length) '0').foldl
          (fun a c => a * 10 + (c.toNat - 48)) 0)
      else none
  | _ => none

def trimOws (cs : List Char) : List Char :=
  ((cs.dropWhile isOws).reverse.dropWhile isOws).reverse

def parseAcceptItem (cs : List Char) : Option AcceptRange :=
  match parseMT ⟨trimOws cs⟩ with
  | none => none
  | some mt =>
      match mt.params.span (·.1 ≠ ['q']) with
      | (before, []) => some ⟨{ mt with params := before }, 1000⟩
      | (before, (_, v) :: _) => (parseQ v).map fun q => ⟨{ mt with params := before }, q⟩

/-- Model of `Accept::from_str`: comma-separated media ranges with
optional qvalues. -/
def parseAccept (s : String) : Option (List AcceptRange) :=
  (s.data.splitOn ',').mapM parseAcceptItem

def rangeMatches (r mt : MT) : Bool :=
  (r.ty = ['*'] || r.ty = mt.ty) && (r.subty = ['*'] || r.subty = mt.subty)

def rangeSpec (r : MT) : Nat :=
  if r.ty = ['*'] then 0 else if r.subty = ['*'] then 1 else 2

def pickBestAux (better : α → α → Bool) : α → List α → α
  | cur, [] => cur
  | cur, x :: xs => pickBestAux better (if better x cur then x else cur) xs

def pickBest (better : α → α → Bool) : List α → Option α
  | [] => none
  | x :: xs => some (pickBestAux better x xs)

def qualityFor (ranges : List AcceptRange) (mt : MT) : Option Nat :=
  (pickBest (fun r b => rangeSpec r.range > rangeSpec b.range)
      (ranges.filter (rangeMatches ·.range mt))).map (·.q)

/-- Model of `Accept::negotiate` (RFC 7231 §5.3.2): the available media
type with the highest positive quality; earlier availables win ties, so
the §4.B preference order applies. -/
def negotiate (ranges : List AcceptRange) (available : List MT) : Option MT :=
  (pickBest (fun x b => x.2 > b.2)
      (available.filterMap fun mt => (qualityFor ranges mt).bind fun q =>
        if q = 0 then none else some (mt, q))).map (·.1)

structure SideRecord where
  path : String
  map : SideMap
  deriving Repr

/-- `NegotiatedPath::for_read`. -/
def forRead (p : String) (exts : SideRecord) (headers : Headers) :
    Except Failure (Option NegotiatedPath) :=
  match extension p, hget headers "accept" with
  | some e, _ =>
      if e ≠ GENERIC_EXT then
        match getMediaType exts.map e with
        | .error f => .error f
        | .ok none => .ok none
        | .ok (some mt) => .ok (some ⟨p, mt⟩)
      else .ok none
  | none, some accBytes =>
      match toStrOpt accBytes with
      | none => .error .error
      | some acc =>
          match parseAccept acc with
          | none => .error .error
          | some ranges =>
              match getAllMediaTypes exts.map with
              | .error f => .error f
              | .ok available =>
                  match negotiate ranges available with
                  | none => .ok none
                  | some mt =>
                      match getExtension mt exts.map with
                      | .error f => .error f
                      | .ok none => .error .panic
                      | .ok (some e) => .ok (some ⟨withExtension p e, mt⟩)
  | none, none =>
      if exts.map.any (·.1 = GENERIC_EXT) then
        .ok (some ⟨withExtension p GENERIC_EXT, genericMT⟩)
      else .ok none

/-! ### The store (model of the leveldb-backed `StorageBackend`)

Values are a sum of raw blobs and decoded sidecar records; the
serde_json round-trip is modelled as the identity on this sum (spec §8.7:
sidecar encode∘decode is identity).  `batch_update` applies its entries in
order, later entries overriding earlier ones on the same key. -/

inductive Val
  | blob (data : Bytes)
  | side (m : SideMap)
  deriving DecidableEq, Repr

abbrev Store := List (String × Val)

def storeGet (st : Store) (k : String) : Option Val :=
  (st.find? (·.1 = k)).map (·.2)

def storePut (st : Store) (k : String) (v : Val) : Store :=
  (k, v) :: st.filter (·.1 ≠ k)

def storeDel (st : Store) (k : String) : Store :=
  st.filter (·.1 ≠ k)

def batchApply (st : Store) (ops : List (String × Option Val)) : Store :=
  ops.foldl
    (fun s op => match op.2 with
      | some v => storePut s op.1 v
      | none => storeDel s op.1)
    st

/-- Deterministic stand-in for the serde_json sidecar encoding; claims
never inspect these bytes. -/
def encodeSide (m : SideMap) : Bytes :=
  (m.map fun kv => strBytes kv.1 ++ [58] ++ strBytes kv.2 ++ [59]).flatten

def valBytes : Val → Bytes
  | .blob d => d
  | .side m => encodeSide m

/-- A backend read interface; errors are abstract. -/
abbrev DB := String → Except Unit (Option Val)

def storeDb (st : Store) : DB := fun k => .ok (storeGet st k)

/-- `PathExtensions::get_for_path`: load-or-default — backend errors,
absent keys and undecodable values all produce the empty mapping. -/
def getForPathDb (db : DB) (p : String) : SideRecord :=
  let sk := sidecarKey p
  ⟨sk,
    match db sk with
    | .ok (some (.side m)) => m
    | _ => []⟩

/-! ### Request handlers (`server.rs`) -/

structure Resp where
  status : Nat
  contentType : Option String
  contentLength : Option Nat
  body : Option Bytes
  deriving DecidableEq, Repr

/-- The GET/HEAD branch of `handle_request`. -/
def getRequest (db : DB) (isHead : Bool) (p : String) (headers : Headers) :
    Except Failure Resp :=
  let exts := getForPathDb db p
  match forRead p exts headers with
  | .error f => .error f
  | .ok none => .ok ⟨404, none, none, none⟩
  | .ok (some np) =>
      match db np.storage_key with
      | .ok (some v) =>
          .ok ⟨200, some (essenceString np.media_type), some (valBytes v).length,
            if isHead then none else some (valBytes v)⟩
      | .ok none => .ok ⟨404, none, none, none⟩
      | .error _ => .ok ⟨503, none, none, none⟩

/-- `PathExtensions::insert`: the updated map stored back to the sidecar
key (panics when the storage key has no extension). -/
def sideInsert (exts : SideRecord) (np : NegotiatedPath) : Except Failure SideMap :=
  match extension np.storage_key with
  | none => .error .panic
  | some e => .ok (mapInsert exts.map e (mtToString np.media_type))

/-- The PUT branch of `handle_request`; returns the new store and the
status code. -/
def putRequest (st : Store) (p : String) (headers : Headers) (body : Bytes) :
    Except Failure (Store × Nat) :=
  match forWrite p headers with
  | .error f => .error f
  | .ok none => .ok (st, 415)
  | .ok (some np) =>
      let keyExists := (storeGet st np.storage_key).isSome
      let exts := getForPathDb (storeDb st) p
      match sideInsert exts np with
      | .error f => .error f
      | .ok m1 =>
          .ok (batchApply st
            [(np.storage_key, some (.blob body)), (exts.path, some (.side m1))],
            if keyExists then 204 else 201)

/-- The DELETE branch of `handle_request`. -/
def deleteRequest (st : Store) (p : String) (headers : Headers) :
    Except Failure (Store × Nat) :=
  let exts := getForPathDb (storeDb st) p
  match forRead p exts headers with
  | .error f => .error f
  | .ok none => .ok (st, 404)
  | .ok (some np) =>
      match extension np.storage_key with
      | none => .error .panic
      | some e =>
          match mapLookup exts.map e with
          | none => .error .panic
          | some _ =>
              let m1 := mapRemove exts.map e
              .ok (batchApply st
                [(np.storage_key, none),
                 (exts.path, if m1.isEmpty then none else some (.side m1))],
                204)

/-- One file of the importer loop in `fs_sync::store_each_file`. -/
def storeFileStep (st : Store) (key : String) (content : Bytes) :
    Except Failure Store :=
  match forWrite key [] with
  | .error f => .error f
  | .ok none => .error .panic
  | .ok (some np0) =>
      match
        if (extension key).isSome then
          match extension np0.storage_key with
          | none => .error .panic
          | some e =>
              .ok (match (mimeGuess e).bind parseMT with
                | some mt => { np0 with media_type := mt }
                | none => np0)
        else (.ok np0 : Except Failure NegotiatedPath) with
      | .error f => .error f
      | .ok np =>
          let exts := getForPathDb (storeDb st) key
          match sideInsert exts np with
          | .error f => .error f
          | .ok m1 =>
              .ok (batchApply st
                [(np.storage_key, some (.blob content)), (exts.path, some (.side m1))])

/-! ### Glob patterns (model of the `glob` crate, with the fixed options
`case_sensitive = true`, `require_literal_separator = true`,
`require_literal_leading_dot = false` that `IgnoreFilter::matches`
always passes). -/

inductive CharSpec
  | single (c : Char)
  | range (lo hi : Char)
  deriving DecidableEq, Repr

inductive GTok
  | char (c : Char)
  | anyChar
  | anySeq
  | anyRecSeq
  | anyWithin (specs : List CharSpec)
  | anyExcept (specs : List CharSpec)
  deriving DecidableEq, Repr

def parseCharSpecs : List Char → List CharSpec
  | a :: '-' :: b :: rest => .range a b :: parseCharSpecs rest
  | a :: rest => .single a :: parseCharSpecs rest
  | [] => []

def inCharSpecs (specs : List CharSpec) (c : Char) : Bool :=
  specs.any fun s =>
    match s with
    | .single sc => c = sc
    | .range lo hi => lo ≤ c && c ≤ hi

def splitAtChar (t : Char) : List Char → Option (List Char × List Char)
  | [] => none
  | c :: rest =>
      if c = t then some ([], rest)
      else (splitAtChar t rest).map fun pr => (c :: pr.1, pr.2)

def pushARS (acc : List GTok) : List GTok :=
  if acc.getLast? = some .anyRecSeq then acc else acc ++ [.anyRecSeq]

/-- `Pattern::new`: compile a glob string.  `atB` records whether we are at
the start or just after a `/` (the `**` component-boundary condition). -/
def compileGlobF : Nat → List Char → Bool → List GTok → Except Unit (List GTok)
  | 0, _, _, _ => .error ()
  | fuel + 1, cs, atB, acc =>
      match cs with
      | [] => .ok acc
      | '?' :: rest => compileGlobF fuel rest false (acc ++ [.anyChar])
      | '*' :: '*' :: '*' :: _ => .error ()
      | '*' :: '*' :: rest2 =>
          if atB then
            match rest2 with
            | '/' :: rest3 => compileGlobF fuel rest3 true (pushARS acc)
            | [] => .ok (pushARS acc)
            | _ => .error ()
          else .error ()
      | '*' :: rest => compileGlobF fuel rest false (acc ++ [.anySeq])
      | '[' :: '!' :: c0 :: rest3 =>
          (match splitAtChar ']' rest3 with
            | none => .error ()
            | some (before, after) =>
                compileGlobF fuel after false (acc ++ [.anyExcept (parseCharSpecs (c0 :: before))]))
      | '[' :: c0 :: rest3 =>
          (match splitAtChar ']' rest3 with
            | none => .error ()
            | some (before, after) =>
                compileGlobF fuel after false (acc ++ [.anyWithin (parseCharSpecs (c0 :: before))]))
      | ['['] => .error ()
      | c :: rest => compileGlobF fuel rest (c = '/') (acc ++ [.char c])

def compileGlob (s : String) : Except Unit (List GTok) :=
  compileGlobF (s.length + 1) s.data true []

/-! The glob matcher (`Pattern::matches_path_with`), fuelled so it reduces
in the kernel.  `mtF` walks the token list; `ssF` is the `*` consume loop
(`*` never crosses `/` under `require_literal_separator`); `srF` is the
`**` consume loop, which only re-tries the continuation after a `/`. -/

mutual

def mtF : Nat → List GTok → List Char → Bool
  | 0, _, _ => false
  | _ + 1, [], cs => cs.isEmpty
  | fuel + 1, .char c :: ts, cs =>
      (match cs with
        | [] => false
        | c1 :: cs1 => c1 = c && mtF fuel ts cs1)
  | fuel + 1, .anyChar :: ts, cs =>
      (match cs with
        | [] => false
        | c1 :: cs1 => c1 ≠ '/' && mtF fuel ts cs1)
  | fuel + 1, .anyWithin specs :: ts, cs =>
      (match cs with
        | [] => false
        | c1 :: cs1 => c1 ≠ '/' && inCharSpecs specs c1 && mtF fuel ts cs1)
  | fuel + 1, .anyExcept specs :: ts, cs =>
      (match cs with
        | [] => false
        | c1 :: cs1 => c1 ≠ '/' && !inCharSpecs specs c1 && mtF fuel ts cs1)
  | fuel + 1, .anySeq :: ts, cs => mtF fuel ts cs || ssF fuel ts cs
  | fuel + 1, .anyRecSeq :: ts, cs => mtF fuel ts cs || srF fuel ts cs

def ssF : Nat → List GTok → List Char → Bool
  | 0, _, _ => false
  | _ + 1, _, [] => false
  | fuel + 1, ts, c :: cs => c ≠ '/' && (mtF fuel ts cs || ssF fuel ts cs)

def srF : Nat → List GTok → List Char → Bool
  | 0, _, _ => false
  | _ + 1, _, [] => false
  | fuel + 1, ts, c :: cs =>
      if c = '/' then mtF fuel ts cs || srF fuel ts cs else srF fuel ts cs

end

def matchTokens (ts : List GTok) (cs : List Char) : Bool :=
  mtF (2 * ts.length + 2 * cs.length + 1) ts cs

/-! ### The ignore filter (`ignore_filter.rs`) -/

structure GlobPattern where
  source : String
  tokens : List GTok
  deriving DecidableEq, Repr

structure IgnoreFilter where
  patterns : List (GlobPattern × Bool)
  deriving DecidableEq, Repr

def isRustWs (c : Char) : Bool :=
  c = ' ' || c = Char.ofNat 9 || c = Char.ofNat 10 || c = Char.ofNat 13

def trimWs (cs : List Char) : List Char :=
  ((cs.dropWhile isRustWs).reverse.dropWhile isRustWs).reverse

/-- Split on a literal backslash-n two-character sequence. -/
def splitBackslashN : List Char → List (List Char)
  | [] => [[]]
  | '\\' :: 'n' :: rest => [] :: splitBackslashN rest
  | c :: rest =>
      match splitBackslashN rest with
      | [] => [[c]]
      | l :: ls => (c :: l) :: ls

/-- `extract_globs`: split lines, remove comments and whitespace. -/
def extractGlobs (input : String) : List String :=
  let lines := (input.data.splitOn '\n').flatMap splitBackslashN
  let lines := lines.filterMap fun l =>
    let t := trimWs l
    if t.head? = some '#' then none
    else some (trimWs (t.takeWhile (· ≠ '#')))
  (lines.flatMap fun l => (l.splitOn ' ').filter (· ≠ [])).map fun l => (⟨l⟩ : String)

/-- `trim_start_matches('!')`: the sort key of a glob token. -/
def trimBang (s : String) : String := ⟨s.data.dropWhile (· = '!')⟩

/-- `strip_prefix('!')`: one leading `!` marks an exception. -/
def stripOneBang (s : String) : String × Bool :=
  if s.data.head? = some '!' then ((⟨s.data.tail⟩ : String), true) else (s, false)

/-- Lexicographic comparison of character lists; agrees with Rust's
byte-wise `str` ordering (UTF-8 byte order equals scalar-value order). -/
def lexLe : List Char → List Char → Bool
  | [], _ => true
  | _ :: _, [] => false
  | a :: as, b :: bs =>
      if a < b then true else if a = b then lexLe as bs else false

lemma lexLe_total : ∀ a b : List Char, lexLe a b = true ∨ lexLe b a = true := by
  intro a
  induction a with
  | nil => intro b; left; rfl
  | cons x xs ih =>
      intro b
      cases b with
      | nil => right; rfl
      | cons y ys =>
          rcases lt_trichotomy x y with h | h | h
          · left; simp [lexLe, h]
          · subst h
            rcases ih ys with h1 | h1
            · left; simp [lexLe, lt_irrefl, h1]
            · right; simp [lexLe, lt_irrefl, h1]
          · right; simp [lexLe, h]

lemma lexLe_antisymm : ∀ {a b : List Char},
    lexLe a b = true → lexLe b a = true → a = b := by
  intro a
  induction a with
  | nil =>
      intro b _ h2
      cases b with
      | nil => rfl
      | cons y ys => exact absurd h2 (by simp [lexLe])
  | cons x xs ih =>
      intro b h1 h2
      cases b with
      | nil => exact absurd h1 (by simp [lexLe])
      | cons y ys =>
          rcases lt_trichotomy x y with h | h | h
          · exact absurd h2 (by simp [lexLe, h, asymm h, ne_of_gt h])
          · subst h
            simp only [lexLe, lt_irrefl, if_false, if_pos rfl] at h1 h2
            rw [ih h1 h2]
          · exact absurd h1 (by simp [lexLe, asymm h, ne_of_gt h])

lemma lexLe_trans : ∀ {a b c : List Char},
    lexLe a b = true → lexLe b c = true → lexLe a c = true := by
  intro a
  induction a with
  | nil => intro b c _ _; rfl
  | cons x xs ih =>
      intro b c h1 h2
      cases b with
      | nil => exact absurd h1 (by simp [lexLe])
      | cons y ys =>
          cases c with
          | nil => exact absurd h2 (by simp [lexLe])
          | cons z zs =>
              by_cases hxy : x < y
              · by_cases hyz : y < z
                · simp [lexLe, lt_trans hxy hyz]
                · by_cases hyz2 : y = z
                  · subst hyz2; simp [lexLe, hxy]
                  · exact absurd h2 (by simp [lexLe, hyz, hyz2])
              · by_cases hxy2 : x = y
                · subst hxy2
                  simp only [lexLe, if_neg hxy, if_pos rfl] at h1
                  by_cases hyz : x < z
                  · simp [lexLe, hyz]
                  · by_cases hyz2 : x = z
                    · subst hyz2
                      simp only [lexLe, if_neg hxy, if_pos rfl] at h2
                      simp [lexLe, if_neg hyz, ih h1 h2]
                    · exact absurd h2 (by simp [lexLe, hyz, hyz2])
                · exact absurd h1 (by simp [lexLe, hxy, hxy2])

def globKeyLe (a b : String) : Prop :=
  lexLe (trimBang a).data (trimBang b).data = true

instance : DecidableRel globKeyLe := fun a b =>
  inferInstanceAs (Decidable (_ = true))

instance : IsTotal String globKeyLe := ⟨fun a b => lexLe_total _ _⟩

instance : IsTrans String globKeyLe := ⟨fun _ _ _ => lexLe_trans⟩

/-- The compile loop of `try_from_str`: strip one `!`, compile, first
error aborts. -/
def compileAll : List String → Except Unit (List (GlobPattern × Bool))
  | [] => .ok []
  | g :: rest =>
      match compileGlob (stripOneBang g).1 with
      | .error e => .error e
      | .ok toks => (compileAll rest).map ((⟨(stripOneBang g).1, toks⟩, (stripOneBang g).2) :: ·)

/-- `IgnoreFilter::try_from_str`: extract tokens, stable-sort by the
un-prefixed spelling, reverse, then compile each pattern. -/
def tryFromStr (globs : String) : Except Unit IgnoreFilter :=
  match compileAll (List.insertionSort globKeyLe (extractGlobs globs)).reverse with
  | .error _ => .error ()
  | .ok ps => .ok ⟨ps⟩

/-- `IgnoreFilter::matches`: first matching pattern wins and returns the
negation of its exception flag; no match (or an empty filter) is false. -/
def filterMatches (f : IgnoreFilter) (path : String) : Bool :=
  if f.patterns.isEmpty then false
  else
    match f.patterns.find? (fun pr => matchTokens pr.1.tokens path.data) with
    | some pr => !pr.2
    | none => false

/-! ### Export (`fs_sync::write_each_key`) -/

structure FS where
  files : List (String × Bytes)
  dirs : List String
  deriving DecidableEq, Repr

def fsWrite (fs : FS) (p : String) (content : Bytes) : FS :=
  ⟨(p, content) :: fs.files.filter (·.1 ≠ p), fs.dirs⟩

def fsRemove (fs : FS) (p : String) : FS :=
  ⟨fs.files.filter (·.1 ≠ p), fs.dirs⟩

def dirChainF : Nat → String → List String
  | 0, _ => []
  | fuel + 1, p =>
      p :: (match parent p with
        | none => []
        | some par => dirChainF fuel par)

/-- `fs::create_dir_all`: the directory and all its ancestors exist
afterwards. -/
def dirChain (p : String) : List String := dirChainF (p.length + 1) p

def createDirAll (fs : FS) (dir : String) : FS :=
  ⟨fs.files, dirChain dir ++ fs.dirs⟩

/-- `Path::strip_prefix("/")`: remove the root component. -/
def stripRootOpt (k : String) : Option String :=
  if k.data.head? = some '/' then some (⟨k.data.dropWhile (· = '/')⟩ : String) else none

/-- `fs_sync::write_each_key`, modelled per collected key:
skip ignored keys, mirror-path computation with its `unwrap`s, write on a
present value (creating parent directories), remove on an absent one with
`NotFound` ignored. -/
def writeEachKey (syncDir : String) (db : DB) (keys : List String)
    (ignore : IgnoreFilter) (fs : FS) : Except Failure FS :=
  match keys with
  | [] => .ok fs
  | key :: rest =>
      if filterMatches ignore key then writeEachKey syncDir db rest ignore fs
      else
        match stripRootOpt key with
        | none => .error .panic
        | some rel =>
            let fp := pathJoin syncDir rel
            match extension fp with
            | none => .error .panic
            | some e =>
                let fp1 := if e = GENERIC_EXT then withExtension fp "" else fp
                match db key with
                | .error _ => .error .error
                | .ok (some v) =>
                    (match parent fp1 with
                      | none => .error .panic
                      | some dir =>
                          writeEachKey syncDir db rest ignore
                            (fsWrite (createDirAll fs dir) fp1 (valBytes v)))
                | .ok none => writeEachKey syncDir db rest ignore (fsRemove fs fp1)

/-! The export behaviour as the specification words it: mirror path =
sync-dir joined with the key minus its leading `/`, trailing sentinel
extension stripped; write (with parent directories) on a present value,
remove (not-found ignored) on an absent one; ignored keys are skipped. -/

/-- The claim's mirror-path formula: sync-dir joined with the key minus
its leading `/`, a trailing sentinel `.octet-stream` extension stripped. -/
def mirrorPath (syncDir key : String) : String :=
  let fp := pathJoin syncDir (⟨key.data.dropWhile (· = '/')⟩ : String)
  if extension fp = some GENERIC_EXT then withExtension fp "" else fp

def mirrorStepSpec (syncDir : String) (db : DB) (ignore : IgnoreFilter)
    (fs : FS) (key : String) : FS :=
  if filterMatches ignore key then fs
  else
    let fp1 := mirrorPath syncDir key
    match db key with
    | .ok (some v) => fsWrite (createDirAll fs ((parent fp1).getD "")) fp1 (valBytes v)
    | _ => fsRemove fs fp1

def mirrorSpec (syncDir : String) (db : DB) (keys : List String)
    (ignore : IgnoreFilter) (fs : FS) : FS :=
  keys.foldl (mirrorStepSpec syncDir db ignore) fs

/-! ### Path lemmas -/

/-- A well-formed extension token: nonempty, no dots, no slashes. -/
def wfExtStr (e : String) : Prop := e.data ≠ [] ∧ ∀ c ∈ e.data, c ≠ '.' ∧ c ≠ '/'

instance (e : String) : Decidable (wfExtStr e) := by unfold wfExtStr; infer_instance

lemma takeWhile_app {p : Char → Bool} :
    ∀ {l1 l2 : List Char}, (∀ c ∈ l1, p c = true) →
    (l1 ++ l2).takeWhile p = l1 ++ l2.takeWhile p ∧
      (l1 ++ l2).dropWhile p = l2.dropWhile p := by
  intro l1
  induction l1 with
  | nil => intro l2 _; simp
  | cons c cs ih =>
      intro l2 h
      have hc : p c = true := h c (List.mem_cons_self ..)
      have := @ih l2 (fun x hx => h x (List.mem_cons_of_mem _ hx))
      simp [List.takeWhile_cons, List.dropWhile_cons, hc, this.1, this.2]

lemma takeWhile_app_stop {p : Char → Bool} {l1 l2 : List Char}
    (h : ∀ c ∈ l1, p c = true)
    (h2 : ∀ c ∈ l2.head?, p c = false) :
    (l1 ++ l2).takeWhile p = l1 ∧ (l1 ++ l2).dropWhile p = l2 := by
  have base := @takeWhile_app p l1 l2 h
  have hl2 : l2.takeWhile p = [] ∧ l2.dropWhile p = l2 := by
    cases l2 with
    | nil => simp
    | cons c cs =>
        have := h2 c rfl
        simp [List.takeWhile_cons, List.dropWhile_cons, this]
  rw [base.1, base.2, hl2.1, hl2.2]
  simp

lemma dropWhile_head_not {p : Char → Bool} :
    ∀ {l : List Char}, ∀ c ∈ (l.dropWhile p).head?, p c = false := by
  intro l
  induction l with
  | nil => intro c h; simp at h
  | cons x xs ih =>
      intro c h
      by_cases hx : p x
      · rw [List.dropWhile_cons, if_pos hx] at h; exact ih c h
      · rw [List.dropWhile_cons, if_neg hx] at h
        simp only [List.head?_cons, Option.mem_def, Option.some_inj] at h
        subst h
        simpa using hx

/-- Structural facts about a successful `fnsRevF` result. -/
lemma fnsRevF_props : ∀ {fuel : Nat} {rcs nameRev preRev : List Char},
    fnsRevF fuel rcs = some (nameRev, preRev) →
    nameRev ≠ [] ∧ nameRev ≠ ['.'] ∧ (∀ c ∈ nameRev, c ≠ '/') ∧
      (preRev = [] ∨ preRev.head? = some '/') := by
  intro fuel
  induction fuel with
  | zero => intro rcs n p h; simp [fnsRevF] at h
  | succ fuel ih =>
      intro rcs nameRev preRev h
      simp only [fnsRevF] at h
      set rcs1 := rcs.dropWhile (· = '/') with hrcs1
      set name := rcs1.takeWhile (· ≠ '/') with hname
      by_cases hdot : name = ['.']
      · rw [if_pos hdot] at h
        exact ih h
      · rw [if_neg hdot] at h
        by_cases hnil : name = []
        · rw [if_pos hnil] at h; exact absurd h (by simp)
        · rw [if_neg hnil] at h
          simp only [Option.some_inj, Prod.mk.injEq] at h
          obtain ⟨h1, h2⟩ := h
          subst h1; subst h2
          refine ⟨hnil, hdot, ?_, ?_⟩
          · intro c hc
            have hp := List.mem_takeWhile_imp hc
            simpa using hp
          · have hdw : rcs1.drop name.length = rcs1.dropWhile (· ≠ '/') := by
              conv_lhs => rw [← List.takeWhile_append_dropWhile (p := (· ≠ '/')) (l := rcs1)]
              rw [← hname, List.drop_left]
            rw [hdw]
            rcases hh : (rcs1.dropWhile (· ≠ '/')).head? with _ | c
            · left; exact List.head?_eq_none_iff.mp hh
            · right
              have := dropWhile_head_not (p := (· ≠ '/')) (l := rcs1) c hh
              simp only [decide_not, Bool.not_eq_false', decide_eq_true_eq] at this
              exact congrArg some this

/-- `fileNameSplit` on a clean decomposition `pre ++ name`. -/
lemma fileNameSplit_clean {pre name : List Char}
    (hn : name ≠ []) (hnd : name ≠ ['.']) (hslash : ∀ c ∈ name, c ≠ '/')
    (hpre : pre = [] ∨ pre.getLast? = some '/') :
    fileNameSplit ⟨pre ++ name⟩ = some (⟨pre⟩, ⟨name⟩) := by
  have hdata : (String.mk (pre ++ name)).data = pre ++ name := rfl
  unfold fileNameSplit fnsRev
  rw [hdata, List.reverse_append]
  obtain ⟨c, rest, hcr⟩ : ∃ c rest, name.reverse = c :: rest := by
    cases hnr : name.reverse with
    | nil => exact absurd (by simpa using congrArg List.reverse hnr) hn
    | cons c rest => exact ⟨c, rest, rfl⟩
  have hlen : (name.reverse ++ pre.reverse).length + 1 = name.length + pre.length + 1 := by
    simp [Nat.add_comm]
  have hmemrev : ∀ x ∈ name.reverse, x ≠ '/' := fun x hx => hslash x (List.mem_reverse.mp hx)
  have hfuel : ∃ f, (name.reverse ++ pre.reverse).length + 1 = f + 1 := ⟨_, rfl⟩
  obtain ⟨f, hf⟩ := hfuel
  rw [hf]
  simp only [fnsRevF]
  have hdrop1 : (name.reverse ++ pre.reverse).dropWhile (· = '/') = name.reverse ++ pre.reverse := by
    rw [hcr, List.cons_append, List.dropWhile_cons,
      if_neg (by simpa using hmemrev c (hcr ▸ List.mem_cons_self ..))]
  have hpreHead : ∀ x ∈ pre.reverse.head?, (x ≠ '/' : Bool) = false := by
    intro x hx
    rcases hpre with h0 | hl
    · subst h0; simp at hx
    · have : pre.reverse.head? = some '/' := by
        rw [List.head?_reverse]; exact hl
      rw [this] at hx
      simp only [Option.mem_def, Option.some_inj] at hx
      subst hx; simp
  have htake := @takeWhile_app_stop (· ≠ '/') name.reverse pre.reverse
    (fun x hx => by simpa using hmemrev x hx) hpreHead
  rw [hdrop1, htake.1]
  have hnr_ne : name.reverse ≠ [] := by simpa using hn
  have hnr_nd : name.reverse ≠ ['.'] := by
    intro hcon
    exact hnd (by simpa using congrArg List.reverse hcon)
  rw [if_neg hnr_nd, if_neg hnr_ne]
  have hdroplen : (name.reverse ++ pre.reverse).drop name.reverse.length = pre.reverse := by
    exact List.drop_left _ _
  simp [hdroplen]

lemma fileNameSplit_props {p : String} {pre name : String}
    (h : fileNameSplit p = some (pre, name)) :
    name ≠ "" ∧ name ≠ "." ∧ (∀ c ∈ name.data, c ≠ '/') ∧
      (pre.data = [] ∨ pre.data.getLast? = some '/') := by
  unfold fileNameSplit fnsRev at h
  rcases hres : fnsRevF (p.data.reverse.length + 1) p.data.reverse with _ | ⟨nameRev, preRev⟩
  · rw [hres] at h; exact absurd h (by simp)
  · rw [hres] at h
    simp only [Option.some_inj, Prod.mk.injEq] at h
    obtain ⟨h1, h2⟩ := h
    have props := fnsRevF_props hres
    refine ⟨?_, ?_, ?_, ?_⟩
    · intro hcon
      apply props.1
      have := congrArg String.data hcon
      rw [← h2] at this
      simpa using congrArg List.reverse this
    · intro hcon
      apply props.2.1
      have := congrArg String.data hcon
      rw [← h2] at this
      have := congrArg List.reverse this
      simpa using this
    · intro c hc
      have : c ∈ nameRev := by
        rw [← h2] at hc
        simpa using List.mem_reverse.mpr hc
      exact props.2.2.1 c this
    · rcases props.2.2.2 with h0 | hh
      · left; rw [← h1, h0]; rfl
      · right
        rw [← h1]
        show preRev.reverse.getLast? = some '/'
        rw [List.getLast?_reverse]
        exact hh

lemma splitLastDot_append {stem e : List Char} (hstem : stem ≠ [])
    (he : ∀ c ∈ e, c ≠ '.') :
    splitLastDot (stem ++ '.' :: e) = (stem, some e) := by
  have harr : (stem ++ '.' :: e).reverse = e.reverse ++ ['.'] ++ stem.reverse := by
    rw [List.reverse_append, List.reverse_cons]
  have hsplit := @takeWhile_app_stop notDot e.reverse (['.'] ++ stem.reverse)
    (fun c hc => by
      have := he c (List.mem_reverse.mp hc)
      simp [notDot, this])
    (fun c hc => by
      simp only [List.cons_append, List.head?_cons, Option.mem_def, Option.some_inj] at hc
      subst hc; simp [notDot])
  rw [List.append_assoc] at harr
  unfold splitLastDot
  rw [harr, hsplit.2, hsplit.1]
  simp only [List.cons_append, List.singleton_append]
  rw [if_neg (by simpa using hstem)]
  simp only [List.nil_append, List.reverse_reverse]

lemma splitLastDot_stem_ne {n : List Char} (h : n ≠ []) : (splitLastDot n).1 ≠ [] := by
  unfold splitLastDot
  rcases hdrop : n.reverse.dropWhile notDot with _ | ⟨c, beforeRev⟩
  · simpa using h
  · by_cases hb : beforeRev = []
    · simp only [hb, if_pos rfl]
      simpa using h
    · simp only [if_neg hb]
      simpa using hb

lemma splitLastDot_stem_subset {n : List Char} :
    ∀ c ∈ (splitLastDot n).1, c ∈ n := by
  intro c hc
  unfold splitLastDot at hc
  rcases hdrop : n.reverse.dropWhile notDot with _ | ⟨x, beforeRev⟩
  · rw [hdrop] at hc; simpa using hc
  · rw [hdrop] at hc
    by_cases hb : beforeRev = []
    · simp only [hb, if_pos rfl] at hc; simpa using hc
    · simp only [if_neg hb] at hc
      have hmem : c ∈ beforeRev := by simpa using hc
      have hsub : beforeRev ⊆ n.reverse := by
        intro y hy
        have : y ∈ n.reverse.dropWhile notDot := by
          rw [hdrop]; exact List.mem_cons_of_mem _ hy
        exact List.dropWhile_subset _ this
      exact List.mem_reverse.mp (hsub hmem)

lemma fileName_isSome_iff {p : String} : (fileName p).isSome ↔
    ∃ pre name, fileNameSplit p = some (pre, name) ∧ name ≠ ".." := by
  unfold fileName
  rcases h : fileNameSplit p with _ | ⟨pre, name⟩
  · simp
  · by_cases hd : name = ".."
    · simp [hd]
    · simp only [if_neg hd, Option.isSome_some, true_iff]
      exact ⟨pre, name, rfl, hd⟩

lemma string_ne_of_data {s : String} {l : List Char} (h : s.data ≠ l) :
    s ≠ ⟨l⟩ := by
  intro hcon
  exact h (congrArg String.data hcon)

lemma withExtension_eq_of_split {p : String} {pre name e : String}
    (h : fileNameSplit p = some (pre, name)) (hdd : name ≠ "..") (he : e ≠ "") :
    withExtension p e = ⟨pre.data ++ (splitLastDot name.data).1 ++ '.' :: e.data⟩ := by
  unfold withExtension
  rw [h]
  dsimp only
  rw [if_neg hdd, if_neg he]

lemma str_ext {s t : String} (h : s.data = t.data) : s = t := by
  cases s
  cases t
  cases h
  rfl

lemma str_eq_empty_of_data {e : String} (h : e.data = []) : e = "" := by
  cases e with
  | mk d =>
      have hd : d = [] := h
      subst hd
      rfl

lemma data_ne_nil_of_str {e : String} (h : e ≠ "") : e.data ≠ [] :=
  fun hcon => h (str_eq_empty_of_data hcon)

lemma str_ne_of_ne_nil {e : String} (h : e.data ≠ []) : e ≠ "" := by
  intro hcon
  subst hcon
  exact h rfl

/-- The central composite fact: adding a well-formed extension to a path
with a file name yields a key that splits back cleanly. -/
lemma withExtension_split {p e : String}
    (hp : (fileName p).isSome) (he : wfExtStr e) :
    ∃ pre name : String, fileNameSplit p = some (pre, name) ∧ name ≠ ".." ∧
      withExtension p e = ⟨pre.data ++ (splitLastDot name.data).1 ++ '.' :: e.data⟩ ∧
      fileNameSplit (withExtension p e) =
        some (pre, ⟨(splitLastDot name.data).1 ++ '.' :: e.data⟩) := by
  obtain ⟨pre, name, hsplit, hdd⟩ := fileName_isSome_iff.mp hp
  obtain ⟨hne, hnd, hns, hpre⟩ := fileNameSplit_props hsplit
  have heS : e ≠ "" := str_ne_of_ne_nil he.1
  have hname_ne : name.data ≠ [] := data_ne_nil_of_str hne
  have hstem_ne : (splitLastDot name.data).1 ≠ [] := splitLastDot_stem_ne hname_ne
  have hstem_pos : 0 < (splitLastDot name.data).1.length := List.length_pos.mpr hstem_ne
  have he_pos : 0 < e.data.length := List.length_pos.mpr he.1
  have hwe := withExtension_eq_of_split hsplit hdd heS
  refine ⟨pre, name, hsplit, hdd, hwe, ?_⟩
  have hgoal : fileNameSplit ⟨pre.data ++ ((splitLastDot name.data).1 ++ '.' :: e.data)⟩ =
      some (pre, ⟨(splitLastDot name.data).1 ++ '.' :: e.data⟩) := by
    apply fileNameSplit_clean
    · simp
    · intro hcon
      have hlen : ((splitLastDot name.data).1 ++ '.' :: e.data).length = 1 := by
        rw [hcon]; rfl
      rw [List.length_append, List.length_cons] at hlen
      omega
    · intro c hc
      rcases List.mem_append.mp hc with h1 | h2
      · exact hns c (splitLastDot_stem_subset c h1)
      · rcases List.mem_cons.mp h2 with h3 | h4
        · subst h3; simp
        · exact (he.2 c h4).2
    · exact hpre
  rw [← List.append_assoc] at hgoal
  rw [hwe]
  exact hgoal

lemma extension_withExtension {p e : String}
    (hp : (fileName p).isSome) (he : wfExtStr e) :
    extension (withExtension p e) = some e ∧ (fileName (withExtension p e)).isSome := by
  obtain ⟨pre, name, hsplit, hdd, hwe, hwsplit⟩ := withExtension_split hp he
  obtain ⟨hne, hnd, hns, hpre⟩ := fileNameSplit_props hsplit
  have hname_ne : name.data ≠ [] := data_ne_nil_of_str hne
  have hstem_ne : (splitLastDot name.data).1 ≠ [] := splitLastDot_stem_ne hname_ne
  have hstem_pos : 0 < (splitLastDot name.data).1.length := List.length_pos.mpr hstem_ne
  have he_pos : 0 < e.data.length := List.length_pos.mpr he.1
  have hname1_ne : (⟨(splitLastDot name.data).1 ++ '.' :: e.data⟩ : String) ≠ ".." := by
    apply string_ne_of_data
    intro hcon
    have hcon2 : (splitLastDot name.data).1 ++ '.' :: e.data = ['.', '.'] := hcon
    have hlen : ((splitLastDot name.data).1 ++ '.' :: e.data).length = 2 := by
      rw [hcon2]; rfl
    rw [List.length_append, List.length_cons] at hlen
    omega
  have hfn : fileName (withExtension p e) =
      some ⟨(splitLastDot name.data).1 ++ '.' :: e.data⟩ := by
    unfold fileName
    rw [hwsplit]
    dsimp only
    rw [if_neg hname1_ne]
  constructor
  · unfold extension
    rw [hfn]
    have hsd := @splitLastDot_append (splitLastDot name.data).1 e.data
      hstem_ne (fun c hc => (he.2 c hc).1)
    show ((splitLastDot ((⟨(splitLastDot name.data).1 ++ '.' :: e.data⟩ : String)).data).2.map
      (⟨·⟩) : Option String) = some e
    rw [show ((⟨(splitLastDot name.data).1 ++ '.' :: e.data⟩ : String)).data =
      (splitLastDot name.data).1 ++ '.' :: e.data from rfl, hsd]
    simp
  · rw [hfn]; rfl

lemma mapLookup_isSome_of_mem {m : SideMap} {k v : String} (h : (k, v) ∈ m) :
    (mapLookup m k).isSome := by
  unfold mapLookup
  rcases hf : m.find? (·.1 = k) with _ | kv
  · exact absurd (by simp : ((k, v).1 = k : Bool)) (by
      simpa using List.find?_eq_none.mp hf (k, v) h)
  · rw [hf]; rfl

lemma getExtension_mem {mt : MT} : ∀ {m : SideMap} {k : String},
    getExtension mt m = .ok (some k) → ∃ v, (k, v) ∈ m := by
  intro m
  induction m with
  | nil => intro k h; simp [getExtension] at h
  | cons kv rest ih =>
      intro k h
      obtain ⟨k1, v1⟩ := kv
      simp only [getExtension] at h
      rcases hp : parseMT v1 with _ | mtv
      · rw [hp] at h; exact absurd h (by simp)
      · rw [hp] at h
        dsimp only at h
        by_cases heq : mtv = mt
        · rw [if_pos heq] at h
          simp only [Except.ok.injEq, Option.some_inj] at h
          exact ⟨v1, by rw [← h]; exact List.mem_cons_self ..⟩
        · rw [if_neg heq] at h
          obtain ⟨v, hv⟩ := ih h
          exact ⟨v, List.mem_cons_of_mem _ hv⟩

lemma wf_table_exts : ∀ kv ∈ mimeToExtTable, wfExtStr kv.2 := by decide

lemma wf_generic : wfExtStr GENERIC_EXT := by decide

lemma wf_ext_token : wfExtStr "ext" := by decide

lemma wf_mime2ext {s g : String} (h : mime2ext s = some g) : wfExtStr g := by
  unfold mime2ext at h
  rcases hf : mimeToExtTable.find? (·.1 = s) with _ | kv
  · rw [hf] at h; exact absurd h (by simp)
  · rw [hf] at h
    simp at h
    have := List.mem_of_find?_eq_some hf
    subst h
    exact wf_table_exts _ this

/-! ### Media-type well-formedness and the display/parse round trip -/

def tokOk (cs : List Char) : Prop := cs ≠ [] ∧ ∀ c ∈ cs, isTchar c = true

instance (cs : List Char) : Decidable (tokOk cs) := by unfold tokOk; infer_instance

/-- The well-formedness invariant every media type in the image of
`MediaType::parse` satisfies. -/
def MTwf (mt : MT) : Prop :=
  tokOk mt.ty ∧ tokOk mt.subty ∧ ∀ kv ∈ mt.params, tokOk kv.1 ∧ tokOk kv.2

instance (mt : MT) : Decidable (MTwf mt) := by unfold MTwf; infer_instance

lemma tchar_not_ows {c : Char} (h : isTchar c = true) : isOws c = false := by
  rcases hows : isOws c with _ | _
  · rfl
  · exfalso
    have hc : c = ' ' ∨ c = Char.ofNat 9 := by
      simpa [isOws] using hows
    rcases hc with h1 | h1 <;> (subst h1; exact absurd h (by decide))

lemma tchar_ne_delims {c : Char} (h : isTchar c = true) :
    c ≠ ';' ∧ c ≠ '=' ∧ c ≠ '/' := by
  refine ⟨?_, ?_, ?_⟩ <;> (intro hcon; subst hcon; exact absurd h (by decide))

lemma takeWhile_tokOk {cs : List Char} (h : cs.takeWhile isTchar ≠ []) :
    tokOk (cs.takeWhile isTchar) :=
  ⟨h, fun _ hc => List.mem_takeWhile_imp hc⟩

lemma parseMTparams_wf : ∀ {fuel : Nat} {cs : List Char}
    {ps : List (List Char × List Char)},
    parseMTparams fuel cs = some ps → ∀ kv ∈ ps, tokOk kv.1 ∧ tokOk kv.2 := by
  intro fuel
  induction fuel with
  | zero =>
      intro cs ps h kv hkv
      cases cs with
      | nil =>
          simp only [parseMTparams, Option.some_inj] at h
          subst h
          simp at hkv
      | cons c rest => simp [parseMTparams] at h
  | succ fuel ih =>
      intro cs ps h kv hkv
      cases cs with
      | nil =>
          simp only [parseMTparams, Option.some_inj] at h
          subst h
          simp at hkv
      | cons c rest =>
          simp only [parseMTparams] at h
          rcases hdrop : (c :: rest).dropWhile isOws with _ | ⟨c1, cs2⟩
          · rw [hdrop] at h
            simp only [Option.some_inj] at h
            subst h
            simp at hkv
          · rw [hdrop] at h
            dsimp only at h
            by_cases hc1 : c1 = ';'
            · rw [if_pos hc1] at h
              by_cases hk : (cs2.dropWhile isOws).takeWhile isTchar = []
              · rw [if_pos hk] at h; exact absurd h (by simp)
              · rw [if_neg hk] at h
                rcases hdrop2 : (cs2.dropWhile isOws).dropWhile isTchar with _ | ⟨c2, cs4⟩
                · rw [hdrop2] at h; exact absurd h (by simp)
                · rw [hdrop2] at h
                  dsimp only at h
                  by_cases hc2 : c2 = '='
                  · rw [if_pos hc2] at h
                    by_cases hv : cs4.takeWhile isTchar = []
                    · rw [if_pos hv] at h; exact absurd h (by simp)
                    · rw [if_neg hv] at h
                      rcases hrest : parseMTparams fuel (cs4.dropWhile isTchar)
                        with _ | ps'
                      · rw [hrest] at h; exact absurd h (by simp)
                      · rw [hrest] at h
                        simp only [Option.map_some', Option.some_inj] at h
                        subst h
                        rcases List.mem_cons.mp hkv with hkv1 | hkv2
                        · subst hkv1
                          exact ⟨takeWhile_tokOk hk, takeWhile_tokOk hv⟩
                        · exact ih hrest kv hkv2
                  · rw [if_neg hc2] at h; exact absurd h (by simp)
            · rw [if_neg hc1] at h; exact absurd h (by simp)

lemma parseMT_wf {s : String} {mt : MT} (h : parseMT s = some mt) : MTwf mt := by
  unfold parseMT at h
  dsimp only at h
  by_cases ht : s.data.takeWhile isTchar = []
  · rw [if_pos ht] at h; exact absurd h (by simp)
  · rw [if_neg ht] at h
    rcases hdrop : s.data.dropWhile isTchar with _ | ⟨c1, cs2⟩
    · rw [hdrop] at h; exact absurd h (by simp)
    · rw [hdrop] at h
      dsimp only at h
      by_cases hc1 : c1 = '/'
      · rw [if_pos hc1] at h
        by_cases hst : cs2.takeWhile isTchar = []
        · rw [if_pos hst] at h; exact absurd h (by simp)
        · rw [if_neg hst] at h
          rcases hps : parseMTparams (cs2.length + 1) (cs2.dropWhile isTchar)
            with _ | ps
          · rw [hps] at h; exact absurd h (by simp)
          · rw [hps] at h
            simp only [Option.map_some', Option.some_inj] at h
            subst h
            exact ⟨takeWhile_tokOk ht, takeWhile_tokOk hst, parseMTparams_wf hps⟩
      · rw [if_neg hc1] at h; exact absurd h (by simp)

lemma paramsStr_head_not_tchar {ps : List (List Char × List Char)} :
    ∀ c ∈ (paramsStr ps).head?, isTchar c = false := by
  intro c hc
  cases ps with
  | nil => simp [paramsStr] at hc
  | cons kv rest =>
      have : (paramsStr (kv :: rest)).head? = some ';' := rfl
      rw [this] at hc
      simp only [Option.mem_def, Option.some_inj] at hc
      subst hc
      decide

lemma paramsStr_length {ps : List (List Char × List Char)} :
    ps.length ≤ (paramsStr ps).length := by
  induction ps with
  | nil => simp [paramsStr]
  | cons kv rest ih =>
      show rest.length + 1 ≤ (paramsStr (kv :: rest)).length
      have : paramsStr (kv :: rest) =
          ';' :: ' ' :: ((kv.1 ++ '=' :: kv.2) ++ paramsStr rest) := by
        simp [paramsStr]
      rw [this]
      simp only [List.length_cons, List.length_append]
      omega

lemma parseMTparams_paramsStr :
    ∀ (ps : List (List Char × List Char)) (fuel : Nat), ps.length < fuel →
    (∀ kv ∈ ps, tokOk kv.1 ∧ tokOk kv.2) →
    parseMTparams fuel (paramsStr ps) = some ps := by
  intro ps
  induction ps with
  | nil => intro fuel _ _; cases fuel <;> rfl
  | cons kv rest ih =>
      intro fuel hf hwf
      obtain ⟨f, rfl⟩ : ∃ f, fuel = f + 1 := ⟨fuel - 1, by omega⟩
      have hk := (hwf kv (List.mem_cons_self ..)).1
      have hv := (hwf kv (List.mem_cons_self ..)).2
      obtain ⟨kc, krest, hkc⟩ : ∃ kc krest, kv.1 = kc :: krest := by
        cases hkd : kv.1 with
        | nil => exact absurd hkd hk.1
        | cons kc krest => exact ⟨kc, krest, rfl⟩
      have hshape : paramsStr (kv :: rest) =
          ';' :: ' ' :: ((kv.1 ++ '=' :: kv.2) ++ paramsStr rest) := by
        simp [paramsStr]
      rw [hshape]
      simp only [parseMTparams]
      have hd1 : (';' :: ' ' :: ((kv.1 ++ '=' :: kv.2) ++ paramsStr rest)).dropWhile
          isOws = ';' :: ' ' :: ((kv.1 ++ '=' :: kv.2) ++ paramsStr rest) := by
        rw [List.dropWhile_cons, if_neg (by decide)]
      rw [hd1]
      dsimp only
      rw [if_pos rfl]
      have hX : (kv.1 ++ '=' :: kv.2) ++ paramsStr rest =
          kv.1 ++ ('=' :: (kv.2 ++ paramsStr rest)) := by
        simp
      have hd2 : (' ' :: ((kv.1 ++ '=' :: kv.2) ++ paramsStr rest)).dropWhile isOws =
          (kv.1 ++ '=' :: kv.2) ++ paramsStr rest := by
        rw [List.dropWhile_cons, if_pos (by decide), hX, hkc, List.cons_append,
          List.dropWhile_cons,
          if_neg (by simpa using tchar_not_ows (hk.2 kc (hkc ▸ List.mem_cons_self ..)))]
      rw [hd2, hX]
      have htk := @takeWhile_app_stop isTchar kv.1
        ('=' :: (kv.2 ++ paramsStr rest)) hk.2
        (fun c hc => by
          simp only [List.head?_cons, Option.mem_def, Option.some_inj] at hc
          subst hc; decide)
      rw [htk.1, if_neg hk.1, htk.2]
      dsimp only
      rw [if_pos rfl]
      have htv := @takeWhile_app_stop isTchar kv.2
        (paramsStr rest) hv.2 paramsStr_head_not_tchar
      rw [htv.1, if_neg hv.1, htv.2]
      rw [ih f (by simpa using Nat.lt_of_succ_lt_succ hf)
        (fun x hx => hwf x (List.mem_cons_of_mem _ hx))]
      rfl

/-- Round trip: displaying a well-formed media type and parsing it back is
the identity.  Together with `parseMT_wf` this covers every media type the
program stores in a sidecar. -/
lemma parseMT_roundtrip {mt : MT} (h : MTwf mt) :
    parseMT (mtToString mt) = some mt := by
  obtain ⟨hty, hsub, hps⟩ := h
  have hshape : (mtToString mt).data =
      mt.ty ++ ('/' :: (mt.subty ++ paramsStr mt.params)) := by
    show mt.ty ++ '/' :: mt.subty ++ paramsStr mt.params = _
    simp
  have ht1 := @takeWhile_app_stop isTchar mt.ty
    ('/' :: (mt.subty ++ paramsStr mt.params)) hty.2
    (fun c hc => by
      simp only [List.head?_cons, Option.mem_def, Option.some_inj] at hc
      subst hc; decide)
  have ht2 := @takeWhile_app_stop isTchar mt.subty
    (paramsStr mt.params) hsub.2 paramsStr_head_not_tchar
  simp only [parseMT]
  rw [hshape, ht1.1, if_neg hty.1, ht1.2]
  dsimp only
  rw [if_pos rfl]
  rw [ht2.1, if_neg hsub.1, ht2.2]
  have hfuel : mt.params.length < (mt.subty ++ paramsStr mt.params).length + 1 := by
    have := @paramsStr_length mt.params
    rw [List.length_append]
    omega
  rw [parseMTparams_paramsStr mt.params _ hfuel hps]
  rfl

/-! ### Store and sidecar-map lemmas -/

lemma find?_filter_ne {α : Type} {k k' : String} (hne : k' ≠ k) :
    ∀ (l : List (String × α)),
    (l.filter (·.1 ≠ k)).find? (·.1 = k') = l.find? (·.1 = k') := by
  intro l
  induction l with
  | nil => rfl
  | cons x xs ih =>
      by_cases hx : x.1 = k
      · have hpx : ¬ ((fun y => (y.1 = k' : Bool)) x = true) := by
          simp only [decide_eq_true_eq]
          rw [hx]
          exact fun hcon => hne hcon.symm
        rw [List.filter_cons, if_neg (by simp [hx]),
          List.find?_cons_of_neg (p := fun y : String × α => (y.1 = k' : Bool)) _ hpx,
          ih]
      · rw [List.filter_cons, if_pos (by simpa using hx)]
        by_cases hx' : x.1 = k'
        · rw [List.find?_cons_of_pos (p := fun y : String × α => (y.1 = k' : Bool)) _
              (by simpa using hx'),
            List.find?_cons_of_pos (p := fun y : String × α => (y.1 = k' : Bool)) _
              (by simpa using hx')]
        · rw [List.find?_cons_of_neg (p := fun y : String × α => (y.1 = k' : Bool)) _
              (by simpa using hx'),
            List.find?_cons_of_neg (p := fun y : String × α => (y.1 = k' : Bool)) _
              (by simpa using hx'), ih]

lemma storeGet_put_self (st : Store) (k : String) (v : Val) :
    storeGet (storePut st k v) k = some v := by
  unfold storeGet storePut
  rw [List.find?_cons_of_pos (p := fun y : String × Val => (y.1 = k : Bool)) _
    (by simp)]
  rfl

lemma storeGet_put_ne (st : Store) {k k' : String} (v : Val) (h : k' ≠ k) :
    storeGet (storePut st k v) k' = storeGet st k' := by
  unfold storeGet storePut
  rw [List.find?_cons_of_neg (p := fun y : String × Val => (y.1 = k' : Bool)) _
      (by simpa using fun hcon : k = k' => h hcon.symm),
    find?_filter_ne h]

lemma storeGet_del_self (st : Store) (k : String) :
    storeGet (storeDel st k) k = none := by
  unfold storeGet storeDel
  rw [List.find?_eq_none.mpr]
  · rfl
  · intro x hx
    have := (List.mem_filter.mp hx).2
    simpa using this

lemma storeGet_del_ne (st : Store) {k k' : String} (h : k' ≠ k) :
    storeGet (storeDel st k) k' = storeGet st k' := by
  unfold storeGet storeDel
  rw [find?_filter_ne h]

lemma mapInsert_lookup_self : ∀ (m : SideMap) (k v : String),
    mapLookup (mapInsert m k v) k = some v := by
  intro m k v
  induction m with
  | nil =>
      show mapLookup [(k, v)] k = some v
      unfold mapLookup
      rw [List.find?_cons_of_pos (p := fun y : String × String => (y.1 = k : Bool)) _ (by simp)]
      rfl
  | cons e rest ih =>
      show mapLookup (if e.1 = k then (k, v) :: rest else e :: mapInsert rest k v) k
        = some v
      by_cases he : e.1 = k
      · rw [if_pos he]
        unfold mapLookup
        rw [List.find?_cons_of_pos (p := fun y : String × String => (y.1 = k : Bool)) _ (by simp)]
        rfl
      · rw [if_neg he]
        unfold mapLookup
        rw [List.find?_cons_of_neg (p := fun y : String × String => (y.1 = k : Bool)) _
          (by simpa using he)]
        exact ih

lemma mapInsert_lookup_ne : ∀ (m : SideMap) {k k' : String} (v : String),
    k' ≠ k → mapLookup (mapInsert m k v) k' = mapLookup m k' := by
  intro m
  induction m with
  | nil =>
      intro k k' v h
      show mapLookup [(k, v)] k' = mapLookup [] k'
      unfold mapLookup
      rw [List.find?_cons_of_neg (p := fun y : String × String => (y.1 = k' : Bool)) _
        (by simpa using fun hcon : k = k' => h hcon.symm)]
  | cons e rest ih =>
      intro k k' v h
      show mapLookup (if e.1 = k then (k, v) :: rest else e :: mapInsert rest k v) k'
        = mapLookup (e :: rest) k'
      by_cases he : e.1 = k
      · rw [if_pos he]
        unfold mapLookup
        rw [List.find?_cons_of_neg (p := fun y : String × String => (y.1 = k' : Bool)) _
            (by simpa using fun hcon : k = k' => h hcon.symm),
          List.find?_cons_of_neg (p := fun y : String × String => (y.1 = k' : Bool)) _ (by
            simp only [decide_eq_true_eq]
            rw [he]
            exact fun hcon : k = k' => h hcon.symm)]
      · rw [if_neg he]
        unfold mapLookup
        by_cases he' : e.1 = k'
        · rw [List.find?_cons_of_pos (p := fun y : String × String => (y.1 = k' : Bool)) _
              (by simpa using he'),
            List.find?_cons_of_pos (p := fun y : String × String => (y.1 = k' : Bool)) _
              (by simpa using he')]
        · rw [List.find?_cons_of_neg (p := fun y : String × String => (y.1 = k' : Bool)) _
              (by simpa using he'),
            List.find?_cons_of_neg (p := fun y : String × String => (y.1 = k' : Bool)) _
              (by simpa using he')]
          exact ih v h

lemma mapInsert_mem : ∀ {m : SideMap} {k v : String} {x : String × String},
    x ∈ mapInsert m k v → x = (k, v) ∨ x ∈ m := by
  intro m
  induction m with
  | nil =>
      intro k v x hx
      left
      simpa [mapInsert] using hx
  | cons e rest ih =>
      intro k v x hx
      show x = (k, v) ∨ x ∈ e :: rest
      rw [show mapInsert (e :: rest) k v =
        if e.1 = k then (k, v) :: rest else e :: mapInsert rest k v from rfl] at hx
      by_cases he : e.1 = k
      · rw [if_pos he] at hx
        rcases List.mem_cons.mp hx with h1 | h2
        · exact Or.inl h1
        · exact Or.inr (List.mem_cons_of_mem _ h2)
      · rw [if_neg he] at hx
        rcases List.mem_cons.mp hx with h1 | h2
        · exact Or.inr (h1 ▸ List.mem_cons_self ..)
        · rcases ih h2 with h3 | h4
          · exact Or.inl h3
          · exact Or.inr (List.mem_cons_of_mem _ h4)

lemma mapRemove_mem {m : SideMap} {k : String} {x : String × String} :
    x ∈ mapRemove m k ↔ x ∈ m ∧ x.1 ≠ k := by
  unfold mapRemove
  rw [List.mem_filter]
  simp

lemma getForPathDb_eq {db : DB} {p : String} {m : SideMap}
    (h : db (sidecarKey p) = .ok (some (.side m))) :
    getForPathDb db p = ⟨sidecarKey p, m⟩ := by
  simp only [getForPathDb, h]

lemma mapLookup_mem {m : SideMap} {k v : String} (h : mapLookup m k = some v) :
    (k, v) ∈ m := by
  unfold mapLookup at h
  rcases hf : m.find? (·.1 = k) with _ | kv
  · rw [hf] at h; exact absurd h (by simp)
  · rw [hf] at h
    simp only [Option.map_some', Option.some_inj] at h
    have hmem := List.mem_of_find?_eq_some hf
    have hkey : kv.1 = k := by simpa using List.find?_some hf
    have hkv : kv = (k, v) := by
      obtain ⟨a, b⟩ := kv
      simp only at hkey h
      rw [hkey, h]
    rw [← hkv]
    exact hmem

lemma mapRemove_lookup_ne {m : SideMap} {k k' : String} (h : k' ≠ k) :
    mapLookup (mapRemove m k) k' = mapLookup m k' := by
  unfold mapLookup mapRemove
  rw [find?_filter_ne h]

lemma fileName_isSome_of_ext {p e : String} (h : extension p = some e) :
    (fileName p).isSome := by
  unfold extension at h
  rcases hf : fileName p with _ | n
  · rw [hf] at h; exact absurd h (by simp)
  · rfl

/-- Attaching the sentinel sidecar extension to any path yields a key whose
extension is `ext` or nothing. -/
lemma extension_withExt_ext (q : String) :
    extension (withExtension q "ext") = none ∨
      extension (withExtension q "ext") = some "ext" := by
  rcases hs : fileNameSplit q with _ | ⟨pre, name⟩
  · left
    unfold withExtension
    rw [hs]
    unfold extension fileName
    rw [hs]
    rfl
  · by_cases hdd : name = ".."
    · left
      unfold withExtension
      rw [hs]
      dsimp only
      rw [if_pos hdd]
      unfold extension fileName
      rw [hs]
      dsimp only
      rw [if_pos hdd]
      rfl
    · right
      have hp : (fileName q).isSome := by
        unfold fileName
        rw [hs]
        dsimp only
        rw [if_neg hdd]
        rfl
      exact (extension_withExtension hp wf_ext_token).1

/-- A path whose extension is neither absent nor `ext` is distinct from its
sidecar key. -/
lemma sidecarKey_ne {p e : String} (hext : extension p = some e)
    (he : e ≠ "ext") : sidecarKey p ≠ p := by
  intro hcon
  unfold sidecarKey at hcon
  rcases extension_withExt_ext (pathJoin "/" (pathStem p)) with h | h
  · rw [hcon, hext] at h
    exact absurd h (by simp)
  · rw [hcon, hext] at h
    simp only [Option.some_inj] at h
    exact he h

/-! ### Claim C3: the for-write case analysis -/

/-- C3 (amended): for-write negotiation on (path, headers) implements the
case table — extension and no content-type gives `K = P` with the generic
media type; no extension and a parseable content-type gives
`K = P.with_extension(guessed or sentinel)` with the parsed type; extension
and parseable content-type gives `K = P` with the parsed type; neither
gives `K = P.with_extension(octet-stream)` with the generic type; a
present, ASCII but unparseable content-type refuses with `None`; a
content-type containing non-visible-ASCII bytes is an error (`Err`), not a
refusal. -/
theorem forWrite_case_analysis (p : String) (hdrs : Headers) :
    ((extension p).isSome → hget hdrs "content-type" = none →
      forWrite p hdrs = .ok (some ⟨p, genericMT⟩)) ∧
    (∀ ct s mt, extension p = none → hget hdrs "content-type" = some ct →
      toStrOpt ct = some s → parseMT s = some mt →
      forWrite p hdrs = .ok (some ⟨withExtension p ((mime2ext s).getD GENERIC_EXT), mt⟩)) ∧
    (∀ ct s mt, (extension p).isSome → hget hdrs "content-type" = some ct →
      toStrOpt ct = some s → parseMT s = some mt →
      forWrite p hdrs = .ok (some ⟨p, mt⟩)) ∧
    (extension p = none → hget hdrs "content-type" = none →
      forWrite p hdrs = .ok (some ⟨withExtension p GENERIC_EXT, genericMT⟩)) ∧
    (∀ ct s, hget hdrs "content-type" = some ct →
      toStrOpt ct = some s → parseMT s = none → forWrite p hdrs = .ok none) ∧
    (∀ ct, hget hdrs "content-type" = some ct → toStrOpt ct = none →
      forWrite p hdrs = .error .error) := by
  refine ⟨?_, ?_, ?_, ?_, ?_, ?_⟩
  · intro hE hH
    obtain ⟨e, hEx⟩ := Option.isSome_iff_exists.mp hE
    simp only [forWrite, hEx, hH]
  · intro ct s mt hE hH hS hP
    simp only [forWrite, hE, hH, hS, hP]
  · intro ct s mt hE hH hS hP
    obtain ⟨e, hEx⟩ := Option.isSome_iff_exists.mp hE
    simp only [forWrite, hEx, hH, hS, hP]
  · intro hE hH
    simp only [forWrite, hE, hH]
  · intro ct s hH hS hP
    rcases hEx : extension p with _ | e <;>
      simp only [forWrite, hEx, hH, hS, hP]
  · intro ct hH hS
    rcases hEx : extension p with _ | e <;>
      simp only [forWrite, hEx, hH, hS]

/-- C3 counterexample: a content-type header value containing a
non-visible-ASCII byte makes `for_write` return an error (the `to_str()?`
propagation), not the `None` refusal the claim asserts. -/
theorem forWrite_nonascii_is_error :
    forWrite "/a" [("content-type", [99, 97, 102, 233])] = .error .error ∧
    forWrite "/a" [("content-type", [99, 97, 102, 233])] ≠ .ok none := by
  exact ⟨rfl, by decide⟩

/-- C3 witness: the (extension, no content-type) row at a concrete input. -/
theorem forWrite_case_analysis_witness :
    forWrite "/a.txt" [] = .ok (some ⟨"/a.txt", genericMT⟩) :=
  (forWrite_case_analysis "/a.txt" []).1 (by decide) rfl

/-! ### Claim C4: negotiated storage keys carry an extension -/

/-- C4 (amended): every storage key produced by a successful for-write or
for-read negotiation carries an extension, provided the request path has a
file name (which the root path `/` does not) and, for reads, the sidecar
mapping's keys are well-formed extension tokens (nonempty, no dots or
slashes). -/
theorem negotiated_key_has_extension (p : String) (hp : (fileName p).isSome) :
    (∀ hdrs np, forWrite p hdrs = .ok (some np) →
      (extension np.storage_key).isSome) ∧
    (∀ sk m hdrs np, (∀ kv ∈ m, wfExtStr kv.1) →
      forRead p ⟨sk, m⟩ hdrs = .ok (some np) →
      (extension np.storage_key).isSome) := by
  constructor
  · intro hdrs np h
    rcases hEx : extension p with _ | e <;>
      rcases hH : hget hdrs "content-type" with _ | ct
    · simp only [forWrite, hEx, hH] at h
      cases h
      exact ((extension_withExtension hp wf_generic).1 ▸ rfl)
    · simp only [forWrite, hEx, hH] at h
      rcases hS : toStrOpt ct with _ | s
      · rw [hS] at h; exact absurd h (by simp)
      · rw [hS] at h
        dsimp only at h
        rcases hP : parseMT s with _ | mt
        · rw [hP] at h; exact absurd h (by simp)
        · rw [hP] at h
          dsimp only at h
          cases h
          have hwf : wfExtStr ((mime2ext s).getD GENERIC_EXT) := by
            rcases hg : mime2ext s with _ | g
            · exact wf_generic
            · exact wf_mime2ext hg
          exact ((extension_withExtension hp hwf).1 ▸ rfl)
    · simp only [forWrite, hEx, hH] at h
      cases h
      rw [hEx]; rfl
    · simp only [forWrite, hEx, hH] at h
      rcases hS : toStrOpt ct with _ | s
      · rw [hS] at h; exact absurd h (by simp)
      · rw [hS] at h
        dsimp only at h
        rcases hP : parseMT s with _ | mt
        · rw [hP] at h; exact absurd h (by simp)
        · rw [hP] at h
          dsimp only at h
          cases h
          rw [hEx]; rfl
  · intro sk m hdrs np hwf h
    rcases hEx : extension p with _ | e
    · rcases hA : hget hdrs "accept" with _ | acc
      · simp only [forRead, hEx, hA] at h
        by_cases hAny : m.any (·.1 = GENERIC_EXT)
        · rw [if_pos hAny] at h
          cases h
          exact ((extension_withExtension hp wf_generic).1 ▸ rfl)
        · rw [if_neg hAny] at h
          exact absurd h (by simp)
      · simp only [forRead, hEx, hA] at h
        rcases hS : toStrOpt acc with _ | s
        · rw [hS] at h; exact absurd h (by simp)
        · rw [hS] at h
          dsimp only at h
          rcases hR : parseAccept s with _ | ranges
          · rw [hR] at h; exact absurd h (by simp)
          · rw [hR] at h
            dsimp only at h
            rcases hG : getAllMediaTypes m with f | avail
            · rw [hG] at h; exact absurd h (by simp)
            · rw [hG] at h
              dsimp only at h
              rcases hN : negotiate ranges avail with _ | mt
              · rw [hN] at h; exact absurd h (by simp)
              · rw [hN] at h
                dsimp only at h
                rcases hGE : getExtension mt m with f | oe
                · rw [hGE] at h; exact absurd h (by simp)
                · rw [hGE] at h
                  rcases oe with _ | e1
                  · exact absurd h (by simp)
                  · dsimp only at h
                    cases h
                    obtain ⟨v, hv⟩ := getExtension_mem hGE
                    exact ((extension_withExtension hp (hwf _ hv)).1 ▸ rfl)
    · simp only [forRead, hEx] at h
      by_cases hGen : e ≠ GENERIC_EXT
      · rw [if_pos hGen] at h
        rcases hM : getMediaType m e with f | omt
        · rw [hM] at h; exact absurd h (by simp)
        · rw [hM] at h
          rcases omt with _ | mt
          · exact absurd h (by simp)
          · dsimp only at h
            cases h
            rw [hEx]; rfl
      · rw [if_neg hGen] at h
        exact absurd h (by simp)

/-- C4 counterexample: a successful for-write negotiation for the root
path produces the storage key `/`, which carries no extension
(`with_extension` is a no-op on a path without a file stem). -/
theorem forWrite_root_key_no_extension :
    forWrite "/" [] = .ok (some ⟨"/", genericMT⟩) ∧ extension "/" = none :=
  ⟨rfl, rfl⟩

/-- C4 witness at a concrete input. -/
theorem negotiated_key_has_extension_witness :
    (fileName "/a").isSome ∧
    forWrite "/a" [] = .ok (some ⟨"/a.octet-stream", genericMT⟩) ∧
    (extension ("/a.octet-stream" : String)).isSome :=
  ⟨by decide, rfl,
    (negotiated_key_has_extension "/a" (by decide)).1 []
      ⟨"/a.octet-stream", genericMT⟩ rfl⟩

/-! ### Claim C5: backend read errors at the HTTP boundary -/

/-- C5 (amended): when the fetch of the value at the negotiated key fails,
the GET/HEAD handler replies 503; a failing fetch of the sidecar record is
swallowed by load-or-default (empty mapping) and surfaces as a negotiation
refusal (404), not as 503. -/
theorem getRequest_value_error_503 (db : DB) (isHead : Bool) (p : String)
    (hdrs : Headers) (np : NegotiatedPath)
    (hneg : forRead p (getForPathDb db p) hdrs = .ok (some np))
    (herr : db np.storage_key = .error ()) :
    getRequest db isHead p hdrs = .ok ⟨503, none, none, none⟩ := by
  simp only [getRequest, hneg, herr]

/-- C5 counterexample: a backend whose every read fails (in particular the
sidecar fetch) yields 404, not the 503 the claim asserts. -/
theorem sidecar_fetch_error_is_404 :
    getRequest (fun _ => .error ()) false "/a.txt" [] =
      .ok ⟨404, none, none, none⟩ ∧ (404 : Nat) ≠ 503 :=
  ⟨rfl, by decide⟩

def c5db : DB := fun k =>
  if k = "/a.ext" then .ok (some (.side [("txt", "text/plain")]))
  else if k = "/a.txt" then .error ()
  else .ok none

/-- C5 witness at a concrete failing backend. -/
theorem getRequest_value_error_503_witness :
    getRequest c5db false "/a.txt" [] = .ok ⟨503, none, none, none⟩ :=
  getRequest_value_error_503 c5db false "/a.txt" []
    ⟨"/a.txt", ⟨"text".data, "plain".data, []⟩⟩ rfl rfl

/-! ### Claim C6: the accept-negotiation preference order -/

lemma orderedInsert_front_jsonLe {a : String} {l : List String}
    (h : ∀ b ∈ l, isJsonStr b = false) :
    List.orderedInsert jsonLe a l = a :: l := by
  cases l with
  | nil => rfl
  | cons b rest =>
      have hb := h b (List.mem_cons_self ..)
      have hle : jsonLe a b := by
        by_cases hja : isJsonStr a <;> simp [jsonLe, jsonRank, hja, hb]
      exact List.orderedInsert_of_le _ _ hle

lemma insertionSort_jsonLe (l : List String)
    (h : (l.filter isJsonStr).length ≤ 1) :
    List.insertionSort jsonLe l =
      l.filter isJsonStr ++ l.filter (fun s => !isJsonStr s) := by
  induction l with
  | nil => rfl
  | cons a l ih =>
      by_cases ha : isJsonStr a = true
      · have hcons : (a :: l).filter isJsonStr = a :: l.filter isJsonStr :=
          List.filter_cons_of_pos ha
        rw [hcons] at h
        have hfj_nil : l.filter isJsonStr = [] := by
          have : (l.filter isJsonStr).length = 0 := by
            have := h
            simp only [List.length_cons] at this
            omega
          exact List.length_eq_zero.mp this
        have hall : ∀ b ∈ l, isJsonStr b = false := by
          intro b hb
          by_contra hcon
          have hmem : b ∈ l.filter isJsonStr :=
            List.mem_filter.mpr ⟨hb, by simpa using hcon⟩
          rw [hfj_nil] at hmem
          cases hmem
        have hfneg : l.filter (fun s => !isJsonStr s) = l :=
          List.filter_eq_self.mpr (fun b hb => by simp [hall b hb])
        have hsorted := ih (by rw [hfj_nil]; simp)
        show List.orderedInsert jsonLe a (List.insertionSort jsonLe l) = _
        rw [hsorted, hfj_nil, hfneg, List.nil_append,
          orderedInsert_front_jsonLe hall, hcons, hfj_nil,
          List.filter_cons_of_neg (by simpa using ha), hfneg]
        rfl
      · have ha' : isJsonStr a = false := by simpa using ha
        have hcons : (a :: l).filter isJsonStr = l.filter isJsonStr :=
          List.filter_cons_of_neg (by simpa using ha')
        rw [hcons] at h
        have hsorted := ih h
        have hneg_all : ∀ b ∈ l.filter (fun s => !isJsonStr s), isJsonStr b = false := by
          intro b hb
          have := (List.mem_filter.mp hb).2
          simpa using this
        show List.orderedInsert jsonLe a (List.insertionSort jsonLe l) = _
        rw [hsorted, hcons, List.filter_cons_of_pos (by simpa using ha')]
        rcases hjl : l.filter isJsonStr with _ | ⟨x, xs⟩
        · rw [List.nil_append, List.nil_append,
            orderedInsert_front_jsonLe hneg_all]
        · have hxs : xs = [] := by
            rw [hjl] at h
            simp only [List.length_cons] at h
            exact List.length_eq_zero.mp (by omega)
          subst hxs
          have hx_json : isJsonStr x = true := by
            have : x ∈ l.filter isJsonStr := by rw [hjl]; exact List.mem_cons_self ..
            exact (List.mem_filter.mp this).2
          have hnle : ¬ jsonLe a x := by
            unfold jsonLe jsonRank
            rw [ha', hx_json]
            simp
          show List.orderedInsert jsonLe a
              ((x :: []) ++ l.filter (fun s => !isJsonStr s)) = _
          rw [List.cons_append, List.nil_append]
          unfold List.orderedInsert
          rw [if_neg hnle]
          rw [orderedInsert_front_jsonLe hneg_all]
          rfl

lemma collectParsed_all_some : ∀ {l : List String},
    (∀ s ∈ l, (parseMT s).isSome) → collectParsed l = some (l.filterMap parseMT) := by
  intro l
  induction l with
  | nil => intro _; rfl
  | cons s rest ih =>
      intro h
      have hs := h s (List.mem_cons_self ..)
      obtain ⟨mt, hmt⟩ := Option.isSome_iff_exists.mp hs
      simp only [collectParsed, hmt]
      rw [ih (fun x hx => h x (List.mem_cons_of_mem _ hx))]
      simp [List.filterMap_cons, hmt]

/-- C6 (amended): for a sidecar mapping whose media-type strings all parse
and at most one of which starts with the literal prefix
`application/json`, the produced list is exactly the mapping's media
types, with the `application/json`-prefixed entry first (when present) and
the remaining entries in insertion order.  The selection is a string
prefix test, not an exact media-type comparison (counterexample:
`application/jsonx` is also moved to the front). -/
theorem getAllMediaTypes_order (m : SideMap)
    (hfew : ((m.map (·.2)).filter isJsonStr).length ≤ 1)
    (hparse : ∀ kv ∈ m, (parseMT kv.2).isSome) :
    getAllMediaTypes m =
      .ok (((m.map (·.2)).filter isJsonStr ++
        (m.map (·.2)).filter (fun s => !isJsonStr s)).filterMap parseMT) := by
  unfold getAllMediaTypes
  rw [insertionSort_jsonLe _ hfew]
  rw [collectParsed_all_some (by
    intro s hs
    rcases List.mem_append.mp hs with h1 | h1 <;>
    · have hmem := (List.mem_filter.mp h1).1
      obtain ⟨kv, hkv, hkv2⟩ := List.mem_map.mp hmem
      exact hkv2 ▸ hparse kv hkv)]

/-- C6 counterexample: with the mapping
`[("a", "text/html"), ("b", "application/jsonx")]` the claim's order would
be insertion order (`application/json` itself is absent), but the code's
prefix test moves `application/jsonx` to the front. -/
theorem getAllMediaTypes_prefix_quirk :
    getAllMediaTypes [("a", "text/html"), ("b", "application/jsonx")] =
      .ok [⟨"application".data, "jsonx".data, []⟩, ⟨"text".data, "html".data, []⟩] ∧
    getAllMediaTypes [("a", "text/html"), ("b", "application/jsonx")] ≠
      .ok [⟨"text".data, "html".data, []⟩, ⟨"application".data, "jsonx".data, []⟩] :=
  ⟨rfl, by decide⟩

/-- C6 witness at a concrete mapping. -/
theorem getAllMediaTypes_order_witness :
    getAllMediaTypes [("html", "text/html"), ("json", "application/json")] =
      .ok [⟨"application".data, "json".data, []⟩, ⟨"text".data, "html".data, []⟩] :=
  getAllMediaTypes_order [("html", "text/html"), ("json", "application/json")]
    (by decide) (by decide)

/-! ### Claim C10: for-read keys are present in the sidecar -/

/-- C10 (amended): whenever for-read negotiation returns `Some`, the
negotiated storage key carries an extension that is present as a key of
the sidecar mapping passed in — provided the request path has a file name
and the mapping's keys are well-formed extension tokens; so the `unwrap`s
in `PathExtensions::remove` and in the accept branch cannot fire.  For the
root path this fails: the key carries no extension and the DELETE handler
panics (counterexample). -/
theorem forRead_key_in_sidecar (p sk : String) (m : SideMap) (hdrs : Headers)
    (np : NegotiatedPath)
    (hp : (fileName p).isSome) (hwf : ∀ kv ∈ m, wfExtStr kv.1)
    (h : forRead p ⟨sk, m⟩ hdrs = .ok (some np)) :
    ∃ e, extension np.storage_key = some e ∧ (mapLookup m e).isSome := by
  rcases hEx : extension p with _ | e
  · rcases hA : hget hdrs "accept" with _ | acc
    · simp only [forRead, hEx, hA] at h
      by_cases hAny : m.any (·.1 = GENERIC_EXT)
      · rw [if_pos hAny] at h
        cases h
        refine ⟨GENERIC_EXT, (extension_withExtension hp wf_generic).1, ?_⟩
        obtain ⟨kv, hkv, hkve⟩ := List.any_eq_true.mp hAny
        obtain ⟨k1, v1⟩ := kv
        have hk : k1 = GENERIC_EXT := by simpa using hkve
        subst hk
        exact mapLookup_isSome_of_mem hkv
      · rw [if_neg hAny] at h
        exact absurd h (by simp)
    · simp only [forRead, hEx, hA] at h
      rcases hS : toStrOpt acc with _ | s
      · rw [hS] at h; exact absurd h (by simp)
      · rw [hS] at h
        dsimp only at h
        rcases hR : parseAccept s with _ | ranges
        · rw [hR] at h; exact absurd h (by simp)
        · rw [hR] at h
          dsimp only at h
          rcases hG : getAllMediaTypes m with f | avail
          · rw [hG] at h; exact absurd h (by simp)
          · rw [hG] at h
            dsimp only at h
            rcases hN : negotiate ranges avail with _ | mt
            · rw [hN] at h; exact absurd h (by simp)
            · rw [hN] at h
              dsimp only at h
              rcases hGE : getExtension mt m with f | oe
              · rw [hGE] at h; exact absurd h (by simp)
              · rw [hGE] at h
                rcases oe with _ | e1
                · exact absurd h (by simp)
                · dsimp only at h
                  cases h
                  obtain ⟨v, hv⟩ := getExtension_mem hGE
                  exact ⟨e1, (extension_withExtension hp (hwf _ hv)).1,
                    mapLookup_isSome_of_mem hv⟩
  · simp only [forRead, hEx] at h
    by_cases hGen : e ≠ GENERIC_EXT
    · rw [if_pos hGen] at h
      rcases hM : getMediaType m e with f | omt
      · rw [hM] at h; exact absurd h (by simp)
      · rw [hM] at h
        rcases omt with _ | mt
        · exact absurd h (by simp)
        · dsimp only at h
          cases h
          refine ⟨e, hEx, ?_⟩
          unfold getMediaType at hM
          rcases hL : mapLookup m e with _ | s
          · rw [hL] at hM; exact absurd hM (by simp)
          · rfl
    · rw [if_neg hGen] at h
      exact absurd h (by simp)

/-- C10 counterexample: after `PUT /` with `content-type: text/plain`, a
`DELETE /` with `accept: text/plain` reaches a `Some` negotiation whose
storage key `/` has no extension, and the handler's `unwrap` panics. -/
theorem delete_root_panics :
    forRead "/" ⟨"/", [("txt", "text/plain")]⟩ [("accept", strBytes "text/plain")] =
      .ok (some ⟨"/", ⟨"text".data, "plain".data, []⟩⟩) ∧
    extension "/" = none ∧
    deleteRequest [("/", .side [("txt", "text/plain")])] "/"
      [("accept", strBytes "text/plain")] = .error .panic :=
  ⟨rfl, rfl, rfl⟩

/-- C10 witness at a concrete input. -/
theorem forRead_key_in_sidecar_witness :
    ∃ e, extension (("/a.txt" : String)) = some e ∧
      (mapLookup [("txt", "text/plain")] e).isSome := by
  have h := forRead_key_in_sidecar "/a" "/a.ext" [("txt", "text/plain")]
    [("accept", strBytes "text/plain")]
    ⟨"/a.txt", ⟨"text".data, "plain".data, []⟩⟩ (by decide) (by decide) rfl
  exact h

/-! ### Claims C7 and C8: the ignore filter -/

lemma trimBang_stripOne (g : String) : trimBang (stripOneBang g).1 = trimBang g := by
  unfold stripOneBang
  by_cases h : g.data.head? = some '!'
  · rw [if_pos h]
    rcases hd : g.data with _ | ⟨c, rest⟩
    · rw [hd] at h; cases h
    · rw [hd] at h
      simp only [List.head?_cons, Option.some_inj] at h
      subst h
      unfold trimBang
      rw [hd]
      dsimp only [List.tail_cons]
      rw [List.dropWhile_cons, if_pos (by simp)]
  · rw [if_neg h]

/-- Every entry of a successful `compileAll` run comes from a source glob. -/
lemma compileAll_mem : ∀ {l : List String} {ps : List (GlobPattern × Bool)},
    compileAll l = .ok ps → ∀ y ∈ ps, ∃ g ∈ l, ∃ toks,
      compileGlob (stripOneBang g).1 = .ok toks ∧
      y = (⟨(stripOneBang g).1, toks⟩, (stripOneBang g).2) := by
  intro l
  induction l with
  | nil =>
      intro ps h y hy
      cases h
      cases hy
  | cons g rest ih =>
      intro ps h y hy
      simp only [compileAll] at h
      rcases hc : compileGlob (stripOneBang g).1 with e | toks
      · rw [hc] at h; exact absurd h (by simp)
      · rw [hc] at h
        rcases hrest : compileAll rest with e | ps1
        · rw [hrest] at h; exact absurd h (by simp [Except.map])
        · rw [hrest] at h
          simp only [Except.map] at h
          cases h
          rcases List.mem_cons.mp hy with h1 | h2
          · exact ⟨g, List.mem_cons_self .., toks, hc, h1⟩
          · obtain ⟨g1, hg1, toks1, hc1, hy1⟩ := ih hrest y h2
            exact ⟨g1, List.mem_cons_of_mem _ hg1, toks1, hc1, hy1⟩

lemma compileAll_pairwise {R : String → String → Prop}
    {S : GlobPattern × Bool → GlobPattern × Bool → Prop}
    (hRS : ∀ g g' x y, R g g' →
      compileGlob (stripOneBang g).1 = .ok x →
      compileGlob (stripOneBang g').1 = .ok y →
      S (⟨(stripOneBang g).1, x⟩, (stripOneBang g).2)
        (⟨(stripOneBang g').1, y⟩, (stripOneBang g').2)) :
    ∀ {l : List String} {ps : List (GlobPattern × Bool)},
    compileAll l = .ok ps → l.Pairwise R → ps.Pairwise S := by
  intro l
  induction l with
  | nil =>
      intro ps h _
      cases h
      exact List.Pairwise.nil
  | cons g rest ih =>
      intro ps h hpw
      simp only [compileAll] at h
      rcases hc : compileGlob (stripOneBang g).1 with e | toks
      · rw [hc] at h; exact absurd h (by simp)
      · rw [hc] at h
        rcases hrest : compileAll rest with e | ps1
        · rw [hrest] at h; exact absurd h (by simp [Except.map])
        · rw [hrest] at h
          simp only [Except.map] at h
          cases h
          rcases List.pairwise_cons.mp hpw with ⟨hg, hrestpw⟩
          refine List.Pairwise.cons ?_ (ih hrest hrestpw)
          intro y hy
          obtain ⟨g1, hg1, toks1, hc1, hy1⟩ := compileAll_mem hrest y hy
          subst hy1
          exact hRS g g1 _ _ (hg g1 hg1) hc hc1

/-- C7: the constructed filter's patterns are sorted by reverse
lexicographic comparison of their un-prefixed spelling; `matches` returns
the negated exception flag of the first matching pattern, and `false` when
no pattern matches or the filter is empty. -/
theorem ignore_filter_behavior (F : String) (flt : IgnoreFilter)
    (h : tryFromStr F = .ok flt) :
    List.Sorted (fun a b : GlobPattern × Bool =>
      globKeyLe b.1.source a.1.source) flt.patterns ∧
    (∀ path : String, filterMatches flt path =
      match flt.patterns.find? (fun pr => matchTokens pr.1.tokens path.data) with
      | some pr => !pr.2
      | none => false) ∧
    (flt.patterns = [] → ∀ path, filterMatches flt path = false) := by
  refine ⟨?_, ?_, ?_⟩
  · unfold tryFromStr at h
    rcases hca : compileAll (List.insertionSort globKeyLe (extractGlobs F)).reverse
      with e | ps
    · rw [hca] at h; exact absurd h (by simp)
    · rw [hca] at h
      cases h
      have hsorted : (List.insertionSort globKeyLe (extractGlobs F)).Sorted globKeyLe :=
        List.sorted_insertionSort globKeyLe (extractGlobs F)
      have hrev : (List.insertionSort globKeyLe (extractGlobs F)).reverse.Pairwise
          (fun a b => globKeyLe b a) := List.pairwise_reverse.mpr hsorted
      exact compileAll_pairwise
        (fun g g' x y hR _ _ => by
          show globKeyLe (stripOneBang g').1 (stripOneBang g).1
          unfold globKeyLe
          rw [trimBang_stripOne, trimBang_stripOne]
          exact hR)
        hca hrev
  · intro path
    unfold filterMatches
    by_cases hemp : flt.patterns.isEmpty
    · rw [if_pos hemp]
      rw [List.isEmpty_iff.mp hemp]
      rfl
    · rw [if_neg hemp]
  · intro hnil path
    unfold filterMatches
    rw [hnil]
    rfl

def c7flt : IgnoreFilter :=
  match tryFromStr "**/* !/*.html !/assets/*" with
  | .ok f => f
  | .error _ => ⟨[]⟩

/-- C7 witness at the spec's own S5 filter. -/
theorem ignore_filter_behavior_witness :
    tryFromStr "**/* !/*.html !/assets/*" = .ok c7flt ∧
    List.Sorted (fun a b : GlobPattern × Bool =>
      globKeyLe b.1.source a.1.source) c7flt.patterns ∧
    filterMatches c7flt "/index.js" = true ∧
    filterMatches c7flt "/target/index.html" = true ∧
    filterMatches c7flt "/index.html" = false ∧
    filterMatches c7flt "/assets/index.css" = false :=
  ⟨by rfl, (ignore_filter_behavior "**/* !/*.html !/assets/*" c7flt (by rfl)).1,
    by rfl, by rfl, by rfl, by rfl⟩

/-- C8 counterexample: two filter strings listing the same two patterns
(`/a` and its exception `!/a`) in different orders disagree on the path
`/a`: the stable sort keeps tie order and the final reverse flips it, so
whichever pattern came later in the input wins. -/
theorem ignore_filter_order_dependent :
    (tryFromStr "/a !/a").map (fun f => filterMatches f "/a") = .ok false ∧
    (tryFromStr "!/a /a").map (fun f => filterMatches f "/a") = .ok true :=
  ⟨by rfl, by rfl⟩

lemma pairwise_lt_of_sorted_nodup {l : List String}
    (hs : l.Sorted globKeyLe) (hn : (l.map trimBang).Nodup) :
    l.Pairwise (fun a b => globKeyLe a b ∧ trimBang a ≠ trimBang b) := by
  have hne : l.Pairwise (fun a b => trimBang a ≠ trimBang b) := List.pairwise_map.mp hn
  exact hs.and hne

lemma sorted_nodupkeys_unique : ∀ {l1 l2 : List String},
    List.Perm l1 l2 → l1.Sorted globKeyLe → l2.Sorted globKeyLe →
    (l1.map trimBang).Nodup → l1 = l2 := by
  intro l1 l2 hperm hs1 hs2 hn1
  have hn2 : (l2.map trimBang).Nodup := (hperm.map trimBang).nodup_iff.mp hn1
  have hlt1 := pairwise_lt_of_sorted_nodup hs1 hn1
  have hlt2 := pairwise_lt_of_sorted_nodup hs2 hn2
  have : IsAntisymm String (fun a b => globKeyLe a b ∧ trimBang a ≠ trimBang b) :=
    ⟨fun a b h1 h2 => (h1.2 (str_ext (lexLe_antisymm h1.1 h2.1))).elim⟩
  exact List.eq_of_perm_of_sorted hperm hlt1 hlt2

/-- C8 (amended): `matches` is independent of the order in which the
filter string lists its patterns, provided no two tokens share the same
un-prefixed spelling (two tokens with identical spelling but different `!`
prefixes are the counterexample). -/
theorem ignore_filter_order_independent (F1 F2 : String)
    (flt1 flt2 : IgnoreFilter)
    (hperm : List.Perm (extractGlobs F1) (extractGlobs F2))
    (hnodup : ((extractGlobs F1).map trimBang).Nodup)
    (h1 : tryFromStr F1 = .ok flt1) (h2 : tryFromStr F2 = .ok flt2) :
    ∀ path, filterMatches flt1 path = filterMatches flt2 path := by
  have hs1 := List.sorted_insertionSort globKeyLe (extractGlobs F1)
  have hs2 := List.sorted_insertionSort globKeyLe (extractGlobs F2)
  have hp1 : List.Perm (List.insertionSort globKeyLe (extractGlobs F1)) (extractGlobs F1) :=
    List.perm_insertionSort globKeyLe (extractGlobs F1)
  have hp2 : List.Perm (List.insertionSort globKeyLe (extractGlobs F2)) (extractGlobs F2) :=
    List.perm_insertionSort globKeyLe (extractGlobs F2)
  have hchain : List.Perm (List.insertionSort globKeyLe (extractGlobs F1))
      (List.insertionSort globKeyLe (extractGlobs F2)) :=
    (hp1.trans hperm).trans hp2.symm
  have hn1 : ((List.insertionSort globKeyLe (extractGlobs F1)).map trimBang).Nodup :=
    (hp1.map trimBang).nodup_iff.mpr hnodup
  have heq := sorted_nodupkeys_unique hchain hs1 hs2 hn1
  unfold tryFromStr at h1 h2
  rw [heq] at h1
  rcases hca : compileAll (List.insertionSort globKeyLe (extractGlobs F2)).reverse
    with e | ps
  · rw [hca] at h1; exact absurd h1 (by simp)
  · rw [hca] at h1 h2
    cases h1
    cases h2
    intro path
    rfl

/-! ### Claim C9: the export step -/

/-- C9: for each collected key not matched by the ignore filter the mirror
file path is the sync directory joined with the key minus its leading `/`,
a trailing sentinel `.octet-stream` extension stripped; a present backend
value is written there after creating parent directories; an absent one
removes the file with not-found errors ignored, and the export succeeds.
Hypotheses: keys are absolute, the computed mirror path has an extension
before stripping and a parent after, and the backend does not error. -/
theorem writeEachKey_spec (syncDir : String) (db : DB) (keys : List String)
    (ignore : IgnoreFilter) (fs : FS)
    (hk : ∀ k ∈ keys,
      k.data.head? = some '/' ∧
      (extension (pathJoin syncDir (⟨k.data.dropWhile (· = '/')⟩ : String))).isSome ∧
      (parent (mirrorPath syncDir k)).isSome ∧
      db k ≠ .error ()) :
    writeEachKey syncDir db keys ignore fs =
      .ok (mirrorSpec syncDir db keys ignore fs) := by
  induction keys generalizing fs with
  | nil => rfl
  | cons k rest ih =>
      obtain ⟨hhead, hext, hpar, hdb⟩ := hk k (List.mem_cons_self ..)
      have hrest := fun x hx => hk x (List.mem_cons_of_mem _ hx)
      have hms : mirrorSpec syncDir db (k :: rest) ignore fs =
          mirrorSpec syncDir db rest ignore (mirrorStepSpec syncDir db ignore fs k) := rfl
      rw [hms]
      show (if filterMatches ignore k then writeEachKey syncDir db rest ignore fs
        else _) = _
      by_cases hig : filterMatches ignore k
      · rw [if_pos hig]
        have hstep : mirrorStepSpec syncDir db ignore fs k = fs := by
          unfold mirrorStepSpec
          rw [if_pos hig]
        rw [hstep]
        exact ih _ hrest
      · rw [if_neg hig]
        have hstrip : stripRootOpt k = some (⟨k.data.dropWhile (· = '/')⟩ : String) := by
          unfold stripRootOpt
          rw [if_pos hhead]
        rw [hstrip]
        dsimp only
        obtain ⟨e, he⟩ := Option.isSome_iff_exists.mp hext
        rw [he]
        dsimp only
        have hstep : mirrorStepSpec syncDir db ignore fs k =
            (let fp1 := mirrorPath syncDir k
            match db k with
            | .ok (some v) => fsWrite (createDirAll fs ((parent fp1).getD "")) fp1 (valBytes v)
            | _ => fsRemove fs fp1) := by
          unfold mirrorStepSpec
          rw [if_neg hig]
        rw [hstep]
        have hmp : mirrorPath syncDir k =
            (if e = GENERIC_EXT
              then withExtension (pathJoin syncDir (⟨k.data.dropWhile (· = '/')⟩ : String)) ""
              else pathJoin syncDir (⟨k.data.dropWhile (· = '/')⟩ : String)) := by
          simp only [mirrorPath]
          rw [he]
          by_cases hg : e = GENERIC_EXT
          · rw [if_pos hg, if_pos (by rw [hg])]
          · rw [if_neg hg, if_neg (by
              intro hcon
              exact hg (Option.some_inj.mp hcon))]
        rcases hdbk : db k with u | ov
        · exact absurd hdbk hdb
        · rcases ov with _ | v
          · dsimp only
            rw [← hmp]
            exact ih _ hrest
          · dsimp only
            rw [← hmp]
            obtain ⟨dir, hdir⟩ := Option.isSome_iff_exists.mp hpar
            rw [hdir]
            dsimp only
            exact ih _ hrest

def c9db : DB := fun k =>
  if k = "/a.txt" then .ok (some (.blob [104, 105]))
  else .ok none

/-- C9 witness: one present key is mirrored, one absent key is removed
(no prior file: the not-found removal is ignored and export succeeds). -/
theorem writeEachKey_spec_witness :
    writeEachKey "/sync" c9db ["/a.txt", "/b.octet-stream"] ⟨[]⟩ ⟨[], []⟩ =
      .ok (mirrorSpec "/sync" c9db ["/a.txt", "/b.octet-stream"] ⟨[]⟩ ⟨[], []⟩) :=
  writeEachKey_spec "/sync" c9db ["/a.txt", "/b.octet-stream"] ⟨[]⟩ ⟨[], []⟩
    (by decide)

def c8f1 : IgnoreFilter :=
  match tryFromStr "/b /a" with
  | .ok f => f
  | .error _ => ⟨[]⟩

def c8f2 : IgnoreFilter :=
  match tryFromStr "/a /b" with
  | .ok f => f
  | .error _ => ⟨[]⟩

/-- C8 witness: two reorderings of the same patterns with distinct
un-prefixed spellings agree. -/
theorem ignore_filter_order_independent_witness :
    filterMatches c8f1 "/a" = filterMatches c8f2 "/a" :=
  ignore_filter_order_independent "/b /a" "/a /b" c8f1 c8f2
    (by
      rw [show extractGlobs "/b /a" = ["/b", "/a"] from rfl,
        show extractGlobs "/a /b" = ["/a", "/b"] from rfl]
      exact List.Perm.swap "/a" "/b" [])
    (by decide) (by rfl) (by rfl) "/a"

/-! ### Claim C1: the PUT/GET round trip -/

/-- C1 (amended): from any store, a PUT of body `V` to a path `P` carrying
an extension that is neither the sentinel `octet-stream` nor the sidecar
extension `ext`, with a visible-ASCII parseable content-type, succeeds
with 201 or 204, and a subsequent GET of `P` with any headers (the
extension branch of for-read never consults accept) replies 200 with body
exactly `V` and a content-type equal to the essence of the parsed
content-type.  Without the extension restriction the claim fails: see the
counterexample, where the PUT succeeds but the GET replies 404. -/
theorem put_then_get_roundtrip
    (st : Store) (p : String) (hdrs ghdrs : Headers) (body ctBytes : Bytes)
    (ct e : String) (mt : MT)
    (hct : hget hdrs "content-type" = some ctBytes)
    (hstr : toStrOpt ctBytes = some ct)
    (hparse : parseMT ct = some mt)
    (hext : extension p = some e)
    (hgen : e ≠ GENERIC_EXT) (hside : e ≠ "ext") :
    ∃ st1 code, putRequest st p hdrs body = .ok (st1, code) ∧
      (code = 201 ∨ code = 204) ∧
      getRequest (storeDb st1) false p ghdrs =
        .ok ⟨200, some (essenceString mt), some body.length, some body⟩ := by
  have hskne : sidecarKey p ≠ p := sidecarKey_ne hext hside
  have hfw : forWrite p hdrs = .ok (some ⟨p, mt⟩) := by
    simp only [forWrite, hext, hct, hstr, hparse]
  have hput : putRequest st p hdrs body =
      .ok (storePut (storePut st p (.blob body)) (sidecarKey p)
          (.side (mapInsert (getForPathDb (storeDb st) p).map e (mtToString mt))),
        if (storeGet st p).isSome then 204 else 201) := by
    simp only [putRequest, hfw, sideInsert, hext]
    rfl
  refine ⟨_, _, hput, ?_, ?_⟩
  · by_cases hk : (storeGet st p).isSome = true
    · rw [if_pos hk]; right; rfl
    · rw [if_neg hk]; left; rfl
  · have hgetSide : storeGet
        (storePut (storePut st p (.blob body)) (sidecarKey p)
          (.side (mapInsert (getForPathDb (storeDb st) p).map e (mtToString mt))))
        (sidecarKey p) =
        some (.side (mapInsert (getForPathDb (storeDb st) p).map e (mtToString mt))) :=
      storeGet_put_self ..
    have hgetVal : storeGet
        (storePut (storePut st p (.blob body)) (sidecarKey p)
          (.side (mapInsert (getForPathDb (storeDb st) p).map e (mtToString mt))))
        p = some (.blob body) := by
      rw [storeGet_put_ne _ _ (fun hcon => hskne hcon.symm)]
      exact storeGet_put_self ..
    have hexts1 : getForPathDb (storeDb
        (storePut (storePut st p (.blob body)) (sidecarKey p)
          (.side (mapInsert (getForPathDb (storeDb st) p).map e (mtToString mt))))) p =
        ⟨sidecarKey p, mapInsert (getForPathDb (storeDb st) p).map e (mtToString mt)⟩ :=
      getForPathDb_eq (by
        show Except.ok (storeGet
          (storePut (storePut st p (.blob body)) (sidecarKey p)
            (.side (mapInsert (getForPathDb (storeDb st) p).map e (mtToString mt))))
          (sidecarKey p)) = _
        rw [hgetSide])
    have hfr : forRead p
        ⟨sidecarKey p, mapInsert (getForPathDb (storeDb st) p).map e (mtToString mt)⟩
        ghdrs = .ok (some ⟨p, mt⟩) := by
      simp only [forRead, hext]
      rw [if_pos hgen]
      simp only [getMediaType, mapInsert_lookup_self]
      rw [parseMT_roundtrip (parseMT_wf hparse)]
    simp only [getRequest, hexts1, hfr, storeDb, hgetVal, valBytes]
    rfl

/-- C1 counterexample: a PUT to `/a.octet-stream` succeeds with 201, but
the subsequent GET of the same path with `accept` set to the stored
content-type replies 404, because the sentinel extension makes for-read
refuse. -/
theorem put_then_get_octet_stream_404 :
    putRequest [] "/a.octet-stream" [("content-type", strBytes "text/plain")]
        [104, 105] =
      .ok ([("/a.ext", .side [("octet-stream", "text/plain")]),
            ("/a.octet-stream", .blob [104, 105])], 201) ∧
    getRequest (storeDb [("/a.ext", .side [("octet-stream", "text/plain")]),
          ("/a.octet-stream", .blob [104, 105])]) false "/a.octet-stream"
        [("accept", strBytes "text/plain")] = .ok ⟨404, none, none, none⟩ ∧
    (404 : Nat) ≠ 200 :=
  ⟨rfl, rfl, by decide⟩

/-- C1 witness: the round trip at a concrete store, path and
content-type. -/
theorem put_then_get_roundtrip_witness :
    ∃ st1 code, putRequest [] "/a.txt"
        [("content-type", strBytes "text/plain; charset=utf-8")] [104, 105] =
          .ok (st1, code) ∧
      (code = 201 ∨ code = 204) ∧
      getRequest (storeDb st1) false "/a.txt" [("accept", strBytes "text/html")] =
        .ok ⟨200, some (essenceString
            ⟨"text".data, "plain".data, [("charset".data, "utf-8".data)]⟩),
          some ([104, 105] : Bytes).length, some [104, 105]⟩ :=
  put_then_get_roundtrip [] "/a.txt"
    [("content-type", strBytes "text/plain; charset=utf-8")]
    [("accept", strBytes "text/html")] [104, 105]
    (strBytes "text/plain; charset=utf-8") "text/plain; charset=utf-8" "txt"
    ⟨"text".data, "plain".data, [("charset".data, "utf-8".data)]⟩
    rfl (by rfl) (by rfl) (by rfl) (by decide) (by decide)

/-! ### Claim C2: the sidecar invariant -/

/-- The store invariant the handlers maintain (C2, amended): every stored
blob's sidecar lives at the path-stem-based sidecar key and records the
blob's extension; every sidecar entry points back to a stored blob through
`with_extension`.  The reconstruction clauses make the invariant
inductive. -/
def Inv (st : Store) : Prop :=
  (∀ k d, storeGet st k = some (Val.blob d) →
    ∃ e, extension k = some e ∧ wfExtStr e ∧ e ≠ "ext" ∧
      withExtension (sidecarKey k) e = k ∧
      ∃ m, storeGet st (sidecarKey k) = some (Val.side m) ∧
        (mapLookup m e).isSome) ∧
  (∀ k m, storeGet st k = some (Val.side m) →
    extension k = some "ext" ∧ sidecarKey k = k ∧
    ∀ en ∈ m, wfExtStr en.1 ∧ en.1 ≠ "ext" ∧
      sidecarKey (withExtension k en.1) = k ∧
      extension (withExtension k en.1) = some en.1 ∧
      ∃ d, storeGet st (withExtension k en.1) = some (Val.blob d))

lemma Inv_nil : Inv ([] : Store) := by
  constructor
  · intro k d h
    simp [storeGet] at h
  · intro k m h
    simp [storeGet] at h

lemma no_blob_at_sidecar (st : Store) (p : String) (hinv : Inv st)
    (hextS : extension (sidecarKey p) = some "ext") :
    ∀ d, storeGet st (sidecarKey p) ≠ some (.blob d) := by
  intro d hcon
  obtain ⟨e0, he0, _, hne0, _⟩ := hinv.1 _ _ hcon
  rw [hextS] at he0
  exact hne0 (Option.some_inj.mp he0).symm

lemma getForPathDb_map_cases (st : Store) (p : String)
    (hnoblob : ∀ d, storeGet st (sidecarKey p) ≠ some (.blob d)) :
    storeGet st (sidecarKey p) =
        some (.side (getForPathDb (storeDb st) p).map) ∨
      ((getForPathDb (storeDb st) p).map = [] ∧
        storeGet st (sidecarKey p) = none) := by
  rcases hS0 : storeGet st (sidecarKey p) with _ | v0
  · right
    exact ⟨by simp only [getForPathDb, storeDb, hS0], rfl⟩
  · rcases v0 with d0 | m0
    · exact absurd hS0 (hnoblob d0)
    · left
      rw [show (getForPathDb (storeDb st) p).map = m0 from by
        simp only [getForPathDb, storeDb, hS0]]

/-- Preservation of the invariant by a PUT-shaped batch: a blob at the
path and the updated sidecar map at the sidecar key, exactly the batch
the PUT handler and the importer issue. -/
lemma inv_preserve_putlike (st : Store) (p e v : String) (body : Bytes)
    (m0 : SideMap) (hinv : Inv st)
    (hext : extension p = some e) (hwf : wfExtStr e) (hne : e ≠ "ext")
    (hcanon : withExtension p "ext" = sidecarKey p)
    (hback : withExtension (sidecarKey p) e = p)
    (hidem : sidecarKey (sidecarKey p) = sidecarKey p)
    (hm0 : storeGet st (sidecarKey p) = some (.side m0) ∨
      (m0 = [] ∧ storeGet st (sidecarKey p) = none)) :
    Inv (storePut (storePut st p (.blob body)) (sidecarKey p)
      (.side (mapInsert m0 e v))) := by
  obtain ⟨hb, hs⟩ := hinv
  have hfn : (fileName p).isSome := fileName_isSome_of_ext hext
  have hextS : extension (sidecarKey p) = some "ext" := by
    rw [← hcanon]
    exact (extension_withExtension hfn wf_ext_token).1
  have hpS : p ≠ sidecarKey p := by
    intro hcon
    rw [hcon, hextS] at hext
    exact hne (Option.some_inj.mp hext).symm
  have hg_S : storeGet (storePut (storePut st p (.blob body)) (sidecarKey p)
      (.side (mapInsert m0 e v))) (sidecarKey p) =
      some (.side (mapInsert m0 e v)) := storeGet_put_self ..
  have hg_p : storeGet (storePut (storePut st p (.blob body)) (sidecarKey p)
      (.side (mapInsert m0 e v))) p = some (.blob body) := by
    rw [storeGet_put_ne _ _ hpS]
    exact storeGet_put_self ..
  have hg_other : ∀ k, k ≠ p → k ≠ sidecarKey p →
      storeGet (storePut (storePut st p (.blob body)) (sidecarKey p)
        (.side (mapInsert m0 e v))) k = storeGet st k := by
    intro k hk1 hk2
    rw [storeGet_put_ne _ _ hk2, storeGet_put_ne _ _ hk1]
  constructor
  · intro k d hk
    by_cases hkS : k = sidecarKey p
    · rw [hkS, hg_S] at hk
      exact absurd hk (by simp)
    by_cases hkp : k = p
    · subst hkp
      refine ⟨e, hext, hwf, hne, hback, mapInsert m0 e v, hg_S, ?_⟩
      rw [mapInsert_lookup_self]
      rfl
    · rw [hg_other k hkp hkS] at hk
      obtain ⟨ek, hek, hwfk, hnek, hbackk, mk, hmk, hlk⟩ := hb k d hk
      refine ⟨ek, hek, hwfk, hnek, hbackk, ?_⟩
      by_cases hSkS : sidecarKey k = sidecarKey p
      · rcases hm0 with hSide | ⟨hM0nil, hSnone⟩
        · have hmkm0 : mk = m0 := by
            rw [hSkS, hSide] at hmk
            exact (Val.side.inj (Option.some_inj.mp hmk)).symm
          refine ⟨mapInsert m0 e v, by rw [hSkS]; exact hg_S, ?_⟩
          by_cases heke : ek = e
          · rw [heke, mapInsert_lookup_self]
            rfl
          · rw [mapInsert_lookup_ne _ _ heke, ← hmkm0]
            exact hlk
        · rw [hSkS, hSnone] at hmk
          exact absurd hmk (by simp)
      · have hSkp : sidecarKey k ≠ p := by
          intro hcon
          have h1 := (hs _ _ hmk).1
          rw [hcon, hext] at h1
          exact hne (Option.some_inj.mp h1)
        refine ⟨mk, ?_, hlk⟩
        rw [hg_other _ hSkp hSkS]
        exact hmk
  · intro k m hk
    by_cases hkp : k = p
    · rw [hkp, hg_p] at hk
      exact absurd hk (by simp)
    by_cases hkS : k = sidecarKey p
    · subst hkS
      rw [hg_S] at hk
      have hm : m = mapInsert m0 e v := (Val.side.inj (Option.some_inj.mp hk)).symm
      subst hm
      refine ⟨hextS, hidem, ?_⟩
      intro en hen
      rcases mapInsert_mem hen with heq | hmem
      · subst heq
        dsimp only
        refine ⟨hwf, hne, ?_, ?_, body, ?_⟩
        · rw [hback]
        · rw [hback]
          exact hext
        · rw [hback]
          exact hg_p
      · rcases hm0 with hSide | ⟨hM0nil, _⟩
        · obtain ⟨hextS', hidemS', hents⟩ := hs _ _ hSide
          obtain ⟨hwfe, hnee, hske, hexte, dM, hdM⟩ := hents en hmem
          refine ⟨hwfe, hnee, hske, hexte, ?_⟩
          by_cases hq : withExtension (sidecarKey p) en.1 = p
          · exact ⟨body, by rw [hq]; exact hg_p⟩
          · have hqS : withExtension (sidecarKey p) en.1 ≠ sidecarKey p := by
              intro hcon
              rw [hcon] at hdM
              rw [hdM] at hSide
              exact absurd (Option.some_inj.mp hSide) (by simp)
            exact ⟨dM, by rw [hg_other _ hq hqS]; exact hdM⟩
        · rw [hM0nil] at hmem
          simp at hmem
    · rw [hg_other k hkp hkS] at hk
      obtain ⟨hextk, hidemk, hents⟩ := hs k m hk
      refine ⟨hextk, hidemk, ?_⟩
      intro en hen
      obtain ⟨hwfe, hnee, hske, hexte, dM, hdM⟩ := hents en hen
      refine ⟨hwfe, hnee, hske, hexte, ?_⟩
      by_cases hq : withExtension k en.1 = p
      · exact ⟨body, by rw [hq]; exact hg_p⟩
      · have hqS : withExtension k en.1 ≠ sidecarKey p := by
          intro hcon
          rcases hm0 with hSide | ⟨_, hSnone⟩
          · rw [hcon] at hdM
            rw [hdM] at hSide
            exact absurd (Option.some_inj.mp hSide) (by simp)
          · rw [hcon, hSnone] at hdM
            exact absurd hdM (by simp)
        exact ⟨dM, by rw [hg_other _ hq hqS]; exact hdM⟩

/-- Preservation of the invariant by a DELETE-shaped batch: delete the
blob, then remove its extension from the sidecar, deleting the sidecar
when its map becomes empty — exactly the batch the DELETE handler
issues. -/
lemma inv_preserve_dellike (st : Store) (p e : String) (m0 : SideMap)
    (mtv : String) (hinv : Inv st)
    (hext : extension p = some e)
    (hS : storeGet st (sidecarKey p) = some (.side m0))
    (hlook : mapLookup m0 e = some mtv)
    (hback : withExtension (sidecarKey p) e = p) :
    Inv (batchApply st [(p, (none : Option Val)),
      (sidecarKey p, if (mapRemove m0 e).isEmpty then none
        else some (.side (mapRemove m0 e)))]) := by
  obtain ⟨hb, hs⟩ := hinv
  obtain ⟨hextS, hidemS, hents⟩ := hs _ _ hS
  have hmemE : (e, mtv) ∈ m0 := mapLookup_mem hlook
  obtain ⟨hwfe, hnee, hske, hexte, dE, hdE⟩ := hents (e, mtv) hmemE
  dsimp only at hwfe hnee hske hexte hdE
  have hpS : p ≠ sidecarKey p := by
    intro hcon
    rw [hcon, hextS] at hext
    exact hnee (Option.some_inj.mp hext).symm
  by_cases hemp : (mapRemove m0 e).isEmpty = true
  · rw [if_pos hemp]
    show Inv (storeDel (storeDel st p) (sidecarKey p))
    have hnil : mapRemove m0 e = [] := by simpa using hemp
    have hgA_p : storeGet (storeDel (storeDel st p) (sidecarKey p)) p = none := by
      rw [storeGet_del_ne _ hpS]
      exact storeGet_del_self ..
    have hgA_S : storeGet (storeDel (storeDel st p) (sidecarKey p))
        (sidecarKey p) = none := storeGet_del_self ..
    have hgA_other : ∀ k, k ≠ p → k ≠ sidecarKey p →
        storeGet (storeDel (storeDel st p) (sidecarKey p)) k = storeGet st k := by
      intro k h1 h2
      rw [storeGet_del_ne _ h2, storeGet_del_ne _ h1]
    constructor
    · intro k d hk
      by_cases hkp : k = p
      · rw [hkp, hgA_p] at hk
        exact absurd hk (by simp)
      by_cases hkS : k = sidecarKey p
      · rw [hkS, hgA_S] at hk
        exact absurd hk (by simp)
      rw [hgA_other k hkp hkS] at hk
      obtain ⟨ek, hek, hwfk, hnek, hbackk, mk, hmk, hlk⟩ := hb k d hk
      by_cases hSkS : sidecarKey k = sidecarKey p
      · exfalso
        have hmkm0 : mk = m0 := by
          rw [hSkS, hS] at hmk
          exact (Val.side.inj (Option.some_inj.mp hmk)).symm
        by_cases heke : ek = e
        · rw [hSkS, heke] at hbackk
          exact hkp (hbackk.symm.trans hback)
        · obtain ⟨vk, hvk⟩ := Option.isSome_iff_exists.mp hlk
          have hmemk : (ek, vk) ∈ mk := mapLookup_mem hvk
          rw [hmkm0] at hmemk
          have hsurv : (ek, vk) ∈ mapRemove m0 e :=
            mapRemove_mem.mpr ⟨hmemk, heke⟩
          rw [hnil] at hsurv
          simp at hsurv
      · have hSkp : sidecarKey k ≠ p := by
          intro hcon
          have h1 := (hs _ _ hmk).1
          rw [hcon, hext] at h1
          exact hnee (Option.some_inj.mp h1)
        exact ⟨ek, hek, hwfk, hnek, hbackk, mk,
          by rw [hgA_other _ hSkp hSkS]; exact hmk, hlk⟩
    · intro k m hk
      by_cases hkp : k = p
      · rw [hkp, hgA_p] at hk
        exact absurd hk (by simp)
      by_cases hkS : k = sidecarKey p
      · rw [hkS, hgA_S] at hk
        exact absurd hk (by simp)
      rw [hgA_other k hkp hkS] at hk
      obtain ⟨hextk, hidemk, hents'⟩ := hs k m hk
      refine ⟨hextk, hidemk, ?_⟩
      intro en hen
      obtain ⟨hwfn, hnen, hskn, hextn, dn, hdn⟩ := hents' en hen
      refine ⟨hwfn, hnen, hskn, hextn, ?_⟩
      have hqp : withExtension k en.1 ≠ p := by
        intro hcon
        rw [hcon] at hskn
        exact hkS hskn.symm
      have hqS : withExtension k en.1 ≠ sidecarKey p := by
        intro hcon
        rw [hcon] at hdn
        rw [hdn] at hS
        exact absurd (Option.some_inj.mp hS) (by simp)
      exact ⟨dn, by rw [hgA_other _ hqp hqS]; exact hdn⟩
  · rw [if_neg hemp]
    show Inv (storePut (storeDel st p) (sidecarKey p) (.side (mapRemove m0 e)))
    have hgB_S : storeGet (storePut (storeDel st p) (sidecarKey p)
        (.side (mapRemove m0 e))) (sidecarKey p) =
        some (.side (mapRemove m0 e)) := storeGet_put_self ..
    have hgB_p : storeGet (storePut (storeDel st p) (sidecarKey p)
        (.side (mapRemove m0 e))) p = none := by
      rw [storeGet_put_ne _ _ hpS]
      exact storeGet_del_self ..
    have hgB_other : ∀ k, k ≠ p → k ≠ sidecarKey p →
        storeGet (storePut (storeDel st p) (sidecarKey p)
          (.side (mapRemove m0 e))) k = storeGet st k := by
      intro k h1 h2
      rw [storeGet_put_ne _ _ h2, storeGet_del_ne _ h1]
    constructor
    · intro k d hk
      by_cases hkp : k = p
      · rw [hkp, hgB_p] at hk
        exact absurd hk (by simp)
      by_cases hkS : k = sidecarKey p
      · rw [hkS, hgB_S] at hk
        exact absurd hk (by simp)
      rw [hgB_other k hkp hkS] at hk
      obtain ⟨ek, hek, hwfk, hnek, hbackk, mk, hmk, hlk⟩ := hb k d hk
      refine ⟨ek, hek, hwfk, hnek, hbackk, ?_⟩
      by_cases hSkS : sidecarKey k = sidecarKey p
      · have hmkm0 : mk = m0 := by
          rw [hSkS, hS] at hmk
          exact (Val.side.inj (Option.some_inj.mp hmk)).symm
        have heke : ek ≠ e := by
          intro hcon
          rw [hSkS, hcon] at hbackk
          exact hkp (hbackk.symm.trans hback)
        refine ⟨mapRemove m0 e, by rw [hSkS]; exact hgB_S, ?_⟩
        rw [mapRemove_lookup_ne heke, ← hmkm0]
        exact hlk
      · have hSkp : sidecarKey k ≠ p := by
          intro hcon
          have h1 := (hs _ _ hmk).1
          rw [hcon, hext] at h1
          exact hnee (Option.some_inj.mp h1)
        exact ⟨mk, by rw [hgB_other _ hSkp hSkS]; exact hmk, hlk⟩
    · intro k m hk
      by_cases hkp : k = p
      · rw [hkp, hgB_p] at hk
        exact absurd hk (by simp)
      by_cases hkS : k = sidecarKey p
      · subst hkS
        rw [hgB_S] at hk
        have hm : m = mapRemove m0 e := (Val.side.inj (Option.some_inj.mp hk)).symm
        subst hm
        refine ⟨hextS, hidemS, ?_⟩
        intro en hen
        have hen0 : en ∈ m0 ∧ en.1 ≠ e := by
          have hr := mapRemove_mem.mp hen
          exact ⟨hr.1, hr.2⟩
        obtain ⟨hwfn, hnen, hskn, hextn, dn, hdn⟩ := hents en hen0.1
        refine ⟨hwfn, hnen, hskn, hextn, ?_⟩
        have hqp : withExtension (sidecarKey p) en.1 ≠ p := by
          intro hcon
          have h1 : extension p = some en.1 := by
            rw [← hcon]
            exact hextn
          rw [hext] at h1
          exact hen0.2 (Option.some_inj.mp h1).symm
        have hqS : withExtension (sidecarKey p) en.1 ≠ sidecarKey p := by
          intro hcon
          rw [hcon] at hdn
          rw [hdn] at hS
          exact absurd (Option.some_inj.mp hS) (by simp)
        exact ⟨dn, by rw [hgB_other _ hqp hqS]; exact hdn⟩
      · rw [hgB_other k hkp hkS] at hk
        obtain ⟨hextk, hidemk, hents'⟩ := hs k m hk
        refine ⟨hextk, hidemk, ?_⟩
        intro en hen
        obtain ⟨hwfn, hnen, hskn, hextn, dn, hdn⟩ := hents' en hen
        refine ⟨hwfn, hnen, hskn, hextn, ?_⟩
        have hqp : withExtension k en.1 ≠ p := by
          intro hcon
          rw [hcon] at hskn
          exact hkS hskn.symm
        have hqS : withExtension k en.1 ≠ sidecarKey p := by
          intro hcon
          rw [hcon] at hdn
          rw [hdn] at hS
          exact absurd (Option.some_inj.mp hS) (by simp)
        exact ⟨dn, by rw [hgB_other _ hqp hqS]; exact hdn⟩

/-- Every successful PUT on an extension-carrying path either leaves the
store unchanged (415) or issues the PUT-shaped batch. -/
lemma putRequest_cases (st : Store) (p : String) (hdrs : Headers)
    (body : Bytes) (e : String) (hext : extension p = some e) :
    ∀ st1 code, putRequest st p hdrs body = .ok (st1, code) →
      st1 = st ∨ ∃ mt, st1 = storePut (storePut st p (.blob body)) (sidecarKey p)
        (.side (mapInsert (getForPathDb (storeDb st) p).map e (mtToString mt))) := by
  intro st1 code h
  rcases hct : hget hdrs "content-type" with _ | ctBytes
  · right
    refine ⟨genericMT, ?_⟩
    have hfw : forWrite p hdrs = .ok (some ⟨p, genericMT⟩) := by
      simp only [forWrite, hext, hct]
    rw [show putRequest st p hdrs body =
        .ok (batchApply st [(p, some (Val.blob body)),
          (sidecarKey p, some (Val.side (mapInsert
            (getForPathDb (storeDb st) p).map e (mtToString genericMT))))],
          if (storeGet st p).isSome then 204 else 201) from by
      simp only [putRequest, hfw, sideInsert, hext]
      rfl] at h
    exact (congrArg Prod.fst (Except.ok.inj h)).symm
  · rcases hstr : toStrOpt ctBytes with _ | ct
    · have hfw : forWrite p hdrs = .error .error := by
        simp only [forWrite, hext, hct, hstr]
      rw [show putRequest st p hdrs body = .error .error from by
        simp only [putRequest, hfw]] at h
      exact absurd h (by simp)
    · rcases hmt : parseMT ct with _ | mtP
      · left
        have hfw : forWrite p hdrs = .ok none := by
          simp only [forWrite, hext, hct, hstr, hmt]
        rw [show putRequest st p hdrs body = .ok (st, 415) from by
          simp only [putRequest, hfw]] at h
        exact (congrArg Prod.fst (Except.ok.inj h)).symm
      · right
        refine ⟨mtP, ?_⟩
        have hfw : forWrite p hdrs = .ok (some ⟨p, mtP⟩) := by
          simp only [forWrite, hext, hct, hstr, hmt]
        rw [show putRequest st p hdrs body =
            .ok (batchApply st [(p, some (Val.blob body)),
              (sidecarKey p, some (Val.side (mapInsert
                (getForPathDb (storeDb st) p).map e (mtToString mtP))))],
              if (storeGet st p).isSome then 204 else 201) from by
          simp only [putRequest, hfw, sideInsert, hext]
          rfl] at h
        exact (congrArg Prod.fst (Except.ok.inj h)).symm

/-- Every successful DELETE on an extension-carrying path either leaves
the store unchanged (404) or issues the DELETE-shaped batch, and then the
sidecar record existed and contained the extension. -/
lemma deleteRequest_cases (st : Store) (p : String) (hdrs : Headers)
    (e : String) (hext : extension p = some e) :
    ∀ st1 code, deleteRequest st p hdrs = .ok (st1, code) →
      st1 = st ∨ ∃ m0 mtv, storeGet st (sidecarKey p) = some (.side m0) ∧
        mapLookup m0 e = some mtv ∧
        st1 = batchApply st [(p, (none : Option Val)),
          (sidecarKey p, if (mapRemove m0 e).isEmpty then none
            else some (.side (mapRemove m0 e)))] := by
  intro st1 code h
  by_cases hgen : e = GENERIC_EXT
  · left
    have hfr : forRead p (getForPathDb (storeDb st) p) hdrs = .ok none := by
      simp only [forRead, hext]
      rw [if_neg (by simpa using hgen)]
    rw [show deleteRequest st p hdrs = .ok (st, 404) from by
      simp only [deleteRequest, hfr]] at h
    exact (congrArg Prod.fst (Except.ok.inj h)).symm
  · rcases hS0 : storeGet st (sidecarKey p) with _ | v0
    · left
      have hexts : getForPathDb (storeDb st) p = ⟨sidecarKey p, []⟩ := by
        simp only [getForPathDb, storeDb, hS0]
      have hfr : forRead p (⟨sidecarKey p, []⟩ : SideRecord) hdrs = .ok none := by
        simp only [forRead, hext]
        rw [if_pos hgen]
        rfl
      rw [show deleteRequest st p hdrs = .ok (st, 404) from by
        simp only [deleteRequest, hexts, hfr]] at h
      exact (congrArg Prod.fst (Except.ok.inj h)).symm
    · rcases v0 with d0 | m0
      · left
        have hexts : getForPathDb (storeDb st) p = ⟨sidecarKey p, []⟩ := by
          simp only [getForPathDb, storeDb, hS0]
        have hfr : forRead p (⟨sidecarKey p, []⟩ : SideRecord) hdrs = .ok none := by
          simp only [forRead, hext]
          rw [if_pos hgen]
          rfl
        rw [show deleteRequest st p hdrs = .ok (st, 404) from by
          simp only [deleteRequest, hexts, hfr]] at h
        exact (congrArg Prod.fst (Except.ok.inj h)).symm
      · have hexts : getForPathDb (storeDb st) p = ⟨sidecarKey p, m0⟩ := by
          simp only [getForPathDb, storeDb, hS0]
        rcases hlk : mapLookup m0 e with _ | sVal
        · left
          have hfr : forRead p (⟨sidecarKey p, m0⟩ : SideRecord) hdrs = .ok none := by
            simp only [forRead, hext]
            rw [if_pos hgen]
            simp only [getMediaType, hlk]
          rw [show deleteRequest st p hdrs = .ok (st, 404) from by
            simp only [deleteRequest, hexts, hfr]] at h
          exact (congrArg Prod.fst (Except.ok.inj h)).symm
        · rcases hps : parseMT sVal with _ | mtv
          · have hfr : forRead p (⟨sidecarKey p, m0⟩ : SideRecord) hdrs =
                .error .error := by
              simp only [forRead, hext]
              rw [if_pos hgen]
              simp only [getMediaType, hlk, hps]
            rw [show deleteRequest st p hdrs = .error .error from by
              simp only [deleteRequest, hexts, hfr]] at h
            exact absurd h (by simp)
          · right
            refine ⟨m0, sVal, rfl, hlk, ?_⟩
            have hfr : forRead p (⟨sidecarKey p, m0⟩ : SideRecord) hdrs =
                .ok (some ⟨p, mtv⟩) := by
              simp only [forRead, hext]
              rw [if_pos hgen]
              simp only [getMediaType, hlk, hps]
            rw [show deleteRequest st p hdrs =
                .ok (batchApply st [(p, (none : Option Val)),
                  (sidecarKey p, if (mapRemove m0 e).isEmpty then none
                    else some (.side (mapRemove m0 e)))], 204) from by
              simp only [deleteRequest, hexts, hfr, hext, hlk]] at h
            exact (congrArg Prod.fst (Except.ok.inj h)).symm

/-- Every successful importer step on an extension-carrying key issues the
PUT-shaped batch for some media type. -/
lemma storeFileStep_cases (st : Store) (key : String) (content : Bytes)
    (e : String) (hext : extension key = some e) :
    ∀ st1, storeFileStep st key content = .ok st1 →
      ∃ mt, st1 = storePut (storePut st key (.blob content)) (sidecarKey key)
        (.side (mapInsert (getForPathDb (storeDb st) key).map e (mtToString mt))) := by
  intro st1 h
  have hfw : forWrite key [] = .ok (some ⟨key, genericMT⟩) := by
    simp only [forWrite, hext,
      show hget ([] : Headers) "content-type" = none from rfl]
  rcases hg : (mimeGuess e).bind parseMT with _ | mtg
  · refine ⟨genericMT, ?_⟩
    rw [show storeFileStep st key content =
        .ok (storePut (storePut st key (.blob content)) (sidecarKey key)
          (.side (mapInsert (getForPathDb (storeDb st) key).map e
            (mtToString genericMT)))) from by
      simp only [storeFileStep, hfw, hext, Option.isSome_some, if_true,
        sideInsert, hg]
      rfl] at h
    exact (Except.ok.inj h).symm
  · refine ⟨mtg, ?_⟩
    rw [show storeFileStep st key content =
        .ok (storePut (storePut st key (.blob content)) (sidecarKey key)
          (.side (mapInsert (getForPathDb (storeDb st) key).map e
            (mtToString mtg)))) from by
      simp only [storeFileStep, hfw, hext, Option.isSome_some, if_true,
        sideInsert, hg]
      rfl] at h
    exact (Except.ok.inj h).symm

/-- C2 (amended): on a canonical path — absolute, carrying a single
well-formed extension that is neither the sidecar extension `ext` nor
(vacuously harmful) multi-level, as captured by the `with_extension`
equations — every successful batch of the PUT handler, the DELETE handler
and the filesystem importer preserves the sidecar invariant `Inv`: every
stored blob's extension is recorded in the sidecar record at its
path-stem sidecar key, and every sidecar entry points back to a stored
blob.  The invariant places the sidecar at `sidecarKey k`, not at
`stem + ".ext"` as the claim states: the two differ on multi-extension
paths, where the claimed invariant fails (see the counterexample). -/
theorem handlers_preserve_sidecar_invariant (st : Store) (p : String)
    (hdrs : Headers) (body : Bytes) (e : String)
    (hinv : Inv st)
    (hext : extension p = some e) (hwf : wfExtStr e) (hne : e ≠ "ext")
    (hcanon : withExtension p "ext" = sidecarKey p)
    (hback : withExtension (sidecarKey p) e = p)
    (hidem : sidecarKey (sidecarKey p) = sidecarKey p) :
    (∀ st1 code, putRequest st p hdrs body = .ok (st1, code) → Inv st1) ∧
    (∀ st1 code, deleteRequest st p hdrs = .ok (st1, code) → Inv st1) ∧
    (∀ st1, storeFileStep st p body = .ok st1 → Inv st1) := by
  have hfn : (fileName p).isSome := fileName_isSome_of_ext hext
  have hextS : extension (sidecarKey p) = some "ext" := by
    rw [← hcanon]
    exact (extension_withExtension hfn wf_ext_token).1
  have hm0 := getForPathDb_map_cases st p (no_blob_at_sidecar st p hinv hextS)
  have hm0' : storeGet st (sidecarKey p) =
      some (.side (getForPathDb (storeDb st) p).map) ∨
      ((getForPathDb (storeDb st) p).map = [] ∧
        storeGet st (sidecarKey p) = none) := hm0
  refine ⟨?_, ?_, ?_⟩
  · intro st1 code h
    rcases putRequest_cases st p hdrs body e hext st1 code h with h1 | ⟨mt, h1⟩
    · rw [h1]
      exact ⟨hinv.1, hinv.2⟩
    · rw [h1]
      exact inv_preserve_putlike st p e (mtToString mt) body _ hinv hext hwf hne
        hcanon hback hidem hm0'
  · intro st1 code h
    rcases deleteRequest_cases st p hdrs e hext st1 code h with
      h1 | ⟨m0, mtv, hS0, hlk, h1⟩
    · rw [h1]
      exact ⟨hinv.1, hinv.2⟩
    · rw [h1]
      exact inv_preserve_dellike st p e m0 mtv hinv hext hS0 hlk hback
  · intro st1 h
    obtain ⟨mt, h1⟩ := storeFileStep_cases st p body e hext st1 h
    rw [h1]
    exact inv_preserve_putlike st p e (mtToString mt) body _ hinv hext hwf hne
      hcanon hback hidem hm0'

/-- The invariant exactly as the claim words it: the sidecar of
`K = stem + "." + ext` lives at `stem + ".ext"`, that is at
`K.with_extension("ext")` (first clause only; it is the clause the
counterexample refutes). -/
def claimSidecarInv (st : Store) : Prop :=
  ∀ k d e, storeGet st k = some (Val.blob d) → extension k = some e →
    e ≠ "ext" →
    ∃ m, storeGet st (withExtension k "ext") = some (Val.side m) ∧
      (mapLookup m e).isSome

/-- C2 counterexample: one successful PUT from the empty store to the
multi-extension path `/a.b.txt` stores the blob at `/a.b.txt` but the
sidecar at `/a.ext` (the path stem strips every extension), so no sidecar
record exists at `stem + ".ext" = /a.b.ext` and the claimed invariant
fails. -/
theorem claim_sidecar_location_fails :
    putRequest [] "/a.b.txt" [("content-type", strBytes "text/plain")] [104] =
      .ok ([("/a.ext", .side [("txt", "text/plain")]),
            ("/a.b.txt", .blob [104])], 201) ∧
    ¬ claimSidecarInv [("/a.ext", .side [("txt", "text/plain")]),
        ("/a.b.txt", .blob [104])] := by
  refine ⟨rfl, ?_⟩
  intro hcl
  obtain ⟨m, hm, _⟩ := hcl "/a.b.txt" [104] "txt" rfl rfl (by decide)
  rw [show storeGet [("/a.ext", Val.side [("txt", "text/plain")]),
      ("/a.b.txt", Val.blob [104])] (withExtension "/a.b.txt" "ext") = none
    from rfl] at hm
  exact absurd hm (by simp)

/-- C2 witness: the three handlers on the canonical path `/a.txt` from the
empty store. -/
theorem handlers_preserve_sidecar_invariant_witness :
    (∀ st1 code, putRequest [] "/a.txt"
        [("content-type", strBytes "text/plain")] [104] = .ok (st1, code) →
      Inv st1) ∧
    (∀ st1 code, deleteRequest [] "/a.txt"
        [("content-type", strBytes "text/plain")] = .ok (st1, code) →
      Inv st1) ∧
    (∀ st1, storeFileStep [] "/a.txt" [104] = .ok st1 → Inv st1) :=
  handlers_preserve_sidecar_invariant [] "/a.txt"
    [("content-type", strBytes "text/plain")] [104] "txt" Inv_nil
    rfl (by decide) (by decide) rfl rfl rfl

end H2kv
